import Mathlib

/-!
Verification of the maliyet-asistani price-aggregation pipeline.

This file gives a shallow embedding of the core pipeline of the repository:
the scraper price-sanity conversion (`_safe_price`), the ŞOK scraper's
balanced-brace JSON extractor and result truncation, the orchestrator's
merge/deduplication (`BotManager.search_all` / `search_all_markets`), the
normalizer (`DataProcessor`: unit extraction, unit-price calculation, fuzzy
duplicate elimination, ranking) and the relevance filter's unit-price
finalization and final sort (`FilterService`).

Numbers are modelled as exact rationals.  All arithmetic used inside the
embedded program is written with `mkRat`-based helpers so that every
concrete run of the embedded code reduces inside the kernel; the helpers
are proved equal to the field operations on `ℚ`.
-/

/-! ## Exact rational arithmetic helpers (kernel-reducible) -/

/-- Multiplication on `ℚ` via `mkRat` (kernel-reducible). -/
def qmul (a b : ℚ) : ℚ := mkRat (a.num * b.num) (a.den * b.den)

/-- Inverse on `ℚ` via `mkRat` (kernel-reducible); `qinv 0 = 0`. -/
def qinv (b : ℚ) : ℚ := mkRat ((b.den : ℤ) * b.num.sign) b.num.natAbs

/-- Division on `ℚ` via `mkRat` (kernel-reducible); division by `0` gives `0`,
which is unreachable at every call site of the embedded program (all of them
are guarded by positivity tests, mirroring the Python source). -/
def qdiv (a b : ℚ) : ℚ := qmul a (qinv b)

/-- Subtraction on `ℚ` via `mkRat` (kernel-reducible). -/
def qsub (a b : ℚ) : ℚ := mkRat (a.num * b.den - b.num * a.den) (a.den * b.den)

/-- Absolute value on `ℚ` via `mkRat` (kernel-reducible). -/
def qabs (a : ℚ) : ℚ := mkRat (a.num.natAbs : ℤ) a.den

/-! ## Python `round(x, 2)`

Python's `round` performs round-half-to-even.  `pyRound2 q` is `round(q, 2)`
on exact rationals. -/

/-- Round-half-to-even to two decimal places, as Python's `round(x, 2)`. -/
def pyRound2 (q : ℚ) : ℚ :=
  let x : ℚ := qmul q (mkRat 100 1)
  let n : ℤ := x.floor
  let r : ℚ := qsub x (mkRat n 1)
  if Rat.blt r (mkRat 1 2) then mkRat n 100
  else if Rat.blt (mkRat 1 2) r then mkRat (n + 1) 100
  else if n % 2 = 0 then mkRat n 100
  else mkRat (n + 1) 100

/-! ## Scraper price sanity conversion

`_safe_price` from `src/scrapers/migros_bot.py` and `src/scrapers/sok_bot.py`
(both scrapers define the identical function; threshold 1000, divisor 100):

    if raw > _KURUS_THRESHOLD: return round(raw / 100, 2)
    return round(raw, 2)
-/

/-- `_safe_price` of the Migros and ŞOK scrapers. -/
def safePrice (raw : ℚ) : ℚ :=
  if Rat.blt (mkRat 1000 1) raw then pyRound2 (qdiv raw (mkRat 100 1))
  else pyRound2 raw
/-! ## Character and string helpers (Python `lower`, `strip`, `replace`) -/

/-- The ASCII apostrophe (the character class of the countable-unit regex). -/
def apos : Char := Char.ofNat 39

def braceOpen : Char := Char.ofNat 123

def braceClose : Char := Char.ofNat 125

def quoteChar : Char := Char.ofNat 34

def backslashChar : Char := Char.ofNat 92

/-- Python `str.lower` on the characters that occur in this code base:
ASCII letters plus the Turkish uppercase letters. -/
def pyLowerChar (c : Char) : Char :=
  if c = 'Ü' then 'ü'
  else if c = 'Ö' then 'ö'
  else if c = 'Ç' then 'ç'
  else if c = 'Ş' then 'ş'
  else if c = 'Ğ' then 'ğ'
  else if c = 'İ' then 'i'
  else if c = 'Â' then 'â'
  else if c = 'Î' then 'î'
  else if c = 'Û' then 'û'
  else c.toLower

/-- Python `\s` whitespace characters. -/
def isSpaceChar (c : Char) : Bool :=
  c = ' ' || c = '\t' || c = '\n' || c = '\r' || c = '\x0b' || c = '\x0c'

/-- Python `str.strip` on a character list. -/
def pyStripList (cs : List Char) : List Char :=
  ((cs.dropWhile isSpaceChar).reverse.dropWhile isSpaceChar).reverse

/-- Python `str.strip`. -/
def pyStrip (s : String) : String := String.mk (pyStripList s.toList)

/-- Python `str.lower`. -/
def pyLower (s : String) : String := String.mk (s.toList.map pyLowerChar)

/-- `text.replace(",", ".")` as used before unit extraction. -/
def commaToDot (cs : List Char) : List Char :=
  cs.map (fun c => if c = ',' then '.' else c)

/-- Turkish letters counted as word characters by Python's Unicode `\b`. -/
def turkishLetter (c : Char) : Bool :=
  ['ç', 'ğ', 'ı', 'ö', 'ş', 'ü', 'Ç', 'Ğ', 'İ', 'Ö', 'Ş', 'Ü',
    'â', 'î', 'û', 'Â', 'Î', 'Û'].contains c

/-- Python regex word character (`\w`) over the alphabet of this code base. -/
def isWordChar (c : Char) : Bool := c.isAlphanum || c = '_' || turkishLetter c

/-- Numeric value of a digit run. -/
def digitsToNat (ds : List Char) : ℕ :=
  ds.foldl (fun n c => n * 10 + (c.toNat - 48)) 0

/-- Exact rational value of `intpart.fracpart` (Python `float(...)` of the
matched decimal literal). -/
def numLitToRat (ds fs : List Char) : ℚ :=
  mkRat ((digitsToNat ds * 10 ^ fs.length + digitsToNat fs : ℕ) : ℤ) (10 ^ fs.length)

/-! ## Unit-pattern matcher

`DataProcessor.UNIT_PATTERNS` are regexes of the common shape
`(\d+(?:[.,]\d+)?)\s*(?:alt1|alt2|...)\b`.  `searchNumberUnit` is `re.search`
of such a pattern: it scans start positions left to right; at a position it
takes a maximal digit run, an optional fraction, any whitespace, then one of
the listed unit words followed by a word boundary. -/

/-- If `cs` starts with `alt`, return the remaining characters. -/
def dropLit : List Char → List Char → Option (List Char)
  | [], rest => some rest
  | _ :: _, [] => none
  | a :: al, c :: cl => if c = a then dropLit al cl else none

/-- Does one unit alternative match here, with a word boundary after it? -/
def altMatchesHere (alt : List Char) (cs : List Char) : Bool :=
  match dropLit alt cs with
  | some [] => true
  | some (c :: _) => !isWordChar c
  | none => false

/-- Try to match `number whitespace* alternative \b` at this position. -/
def matchNumberUnitHere (alts : List (List Char)) (cs : List Char) : Option ℚ :=
  let ds := cs.takeWhile Char.isDigit
  if ds.isEmpty then none
  else
    let rest := cs.drop ds.length
    let fr : List Char × List Char :=
      match rest with
      | c :: c2 :: tail =>
        if (c = '.' || c = ',') && c2.isDigit then
          let fs := (c2 :: tail).takeWhile Char.isDigit
          (fs, (c2 :: tail).drop fs.length)
        else ([], rest)
      | _ => ([], rest)
    let rest2 := fr.2.dropWhile isSpaceChar
    if alts.any (fun alt => altMatchesHere alt rest2) then some (numLitToRat ds fr.1)
    else none

/-- `re.search` of a unit pattern: first position whose match succeeds. -/
def searchNumberUnit (alts : List (List Char)) : List Char → Option ℚ
  | [] => none
  | c :: rest =>
    match matchNumberUnitHere alts (c :: rest) with
    | some v => some v
    | none => searchNumberUnit alts rest

/-- Alternatives of the countable `adet` pattern
`(?:['']?li|['']?lı|['']?lu|['']?lü|adet|ad|pcs|piece|paket|pkt)`. -/
def adetAlts : List (List Char) :=
  [apos :: ['l', 'i'], ['l', 'i'], apos :: ['l', 'ı'], ['l', 'ı'],
    apos :: ['l', 'u'], ['l', 'u'], apos :: ['l', 'ü'], ['l', 'ü'],
    "adet".toList, "ad".toList, "pcs".toList, "piece".toList,
    "paket".toList, "pkt".toList]

/-- `DataProcessor.UNIT_PATTERNS`, in dict (priority) order:
name, regex alternatives, conversion factor, is_countable. -/
def unitFamilies : List (String × List (List Char) × ℚ × Bool) :=
  [("kg", ["kg".toList, "kilogram".toList, "kilo".toList], mkRat 1000 1, false),
    ("g", ["gr".toList, "g".toList, "gram".toList], mkRat 1 1, false),
    ("lt", ["lt".toList, "l".toList, "litre".toList, "liter".toList], mkRat 1000 1, false),
    ("ml", ["ml".toList, "mililitre".toList, "milliliter".toList], mkRat 1 1, false),
    ("adet", adetAlts, mkRat 1 1, true),
    ("rulo", ["rulo".toList, "roll".toList], mkRat 1 1, true),
    ("tablet", ["tablet".toList, "tb".toList, "tab".toList], mkRat 1 1, true),
    ("yıkama", ["yıkama".toList, "yikama".toList, "wash".toList], mkRat 1 1, true)]

/-- The first unit family whose pattern matches the text wins
(the `for ... break` loop in `normalize_product`). -/
def findUnitMatch : List (String × List (List Char) × ℚ × Bool) → List Char →
    Option (String × ℚ × ℚ × Bool)
  | [], _ => none
  | (uname, alts, factor, countable) :: rest, cs =>
    match searchNumberUnit alts cs with
    | some v => some (uname, v, factor, countable)
    | none => findUnitMatch rest cs

/-! ## Product records

A product record is the dict flowing through the pipeline.  Fields that a
Python dict may lack are `Option`-valued with the dict-access defaults of the
source (`get("unit_type", "unknown")`, `get("price", 0)`, …) applied at the
use sites. -/

structure ProductRec where
  product_name : String := ""
  price : Option ℚ := none
  market_name : String := ""
  currency : String := "TRY"
  image_url : Option String := none
  gramaj : Option ℚ := none
  unit_type : String := "unknown"
  unit_value : Option ℚ := none
  is_countable : Bool := false
  has_unit_info : Bool := false
  unit_price : Option ℚ := none
  unit_price_per_100 : Option ℚ := none
  normalized_price_per_kg : Option ℚ := none
deriving DecidableEq

/-- Python truthiness of an optional number combined with `> 0`
(`x and x > 0`). -/
def optTruthyPos : Option ℚ → Bool
  | some v => (!(v == 0)) && Rat.blt 0 v
  | none => false

/-! ## DataProcessor.normalize_product -/

/-- `DataProcessor.normalize_product`: extract unit info from the product
name (first matching unit family wins), canonicalize gramaj, set
`has_unit_info`. -/
def normalizeProduct (p : ProductRec) : ProductRec :=
  if p.product_name = "" then p
  else
    let tl := (commaToDot p.product_name.toList).map pyLowerChar
    let st : Option ℚ × String × Option ℚ × Bool :=
      match findUnitMatch unitFamilies tl with
      | some (uname, v, factor, countable) =>
        (if countable then none else some (qmul v factor), uname, some v, countable)
      | none => (p.gramaj, p.unit_type, p.unit_value, p.is_countable)
    { p with
      gramaj := st.1
      unit_type := st.2.1
      unit_value := st.2.2.1
      is_countable := st.2.2.2
      has_unit_info := (st.2.1 != "unknown") && st.2.2.1.isSome }

/-! ## DataProcessor.calculate_unit_price -/

/-- `DataProcessor.calculate_unit_price`: price per 1 unit for countable
records, price per 100 canonical units when gramaj is known, else `None`;
also mirrors `unit_price_per_100`. -/
def calculateUnitPrice (p : ProductRec) : ProductRec :=
  let price := p.price.getD 0
  let up : Option ℚ :=
    if (!(price == 0)) && Rat.blt 0 price then
      if p.is_countable && optTruthyPos p.unit_value then
        some (pyRound2 (qdiv price (p.unit_value.getD 0)))
      else if optTruthyPos p.gramaj then
        some (pyRound2 (qmul (qdiv price (p.gramaj.getD 0)) (mkRat 100 1)))
      else none
    else none
  { p with unit_price := up, unit_price_per_100 := up }

/-! ## DataProcessor.filter_invalid_products -/

/-- `DataProcessor.filter_invalid_products`: drop records with a blank
(stripped) name or a missing/non-positive price. -/
def filterInvalidProducts (ps : List ProductRec) : List ProductRec :=
  ps.filter (fun p =>
    (!(pyStrip p.product_name == "")) &&
      (match p.price with
        | none => false
        | some v => Rat.blt 0 v))

/-! ## difflib.SequenceMatcher ratio

`smart_filter_duplicates` measures name similarity with
`SequenceMatcher(None, name1, name2).ratio()`.  For strings shorter than 200
characters no autojunk applies, and the ratio is `2*M/T` where `M` is the
total size of the matching blocks of the Ratcliff-Obershelp recursion
(longest matching block, ties broken towards the lowest start in `a`, then
in `b`; recurse on both sides) and `T` the total length. -/

/-- Length of the common leading run of two character lists. -/
def commonRun : List Char → List Char → ℕ
  | a :: al, b :: bl => if a = b then commonRun al bl + 1 else 0
  | _, _ => 0

/-- One candidate step of `find_longest_match`: keep the strictly longer
block (iteration order gives the tie-breaking of CPython). -/
def lmStep (a b : List Char) (best : ℕ × ℕ × ℕ) (i j : ℕ) : ℕ × ℕ × ℕ :=
  let k := commonRun (a.drop i) (b.drop j)
  if best.2.2 < k then (i, j, k) else best

/-- `find_longest_match` over the whole ranges (no junk): the longest
matching block, earliest in `a` then in `b` on ties. -/
def longestMatch (a b : List Char) : ℕ × ℕ × ℕ :=
  (List.range a.length).foldl
    (fun best i => (List.range b.length).foldl (fun best2 j => lmStep a b best2 i j) best)
    (0, 0, 0)

/-- Total matched size of the Ratcliff-Obershelp recursion, fuelled; each
recursive call strictly shrinks `a.length + b.length`, so the fuel below is
never exhausted. -/
def matchTotalF : ℕ → List Char → List Char → ℕ
  | 0, _, _ => 0
  | fuel + 1, a, b =>
    let t := longestMatch a b
    if t.2.2 = 0 then 0
    else
      matchTotalF fuel (a.take t.1) (b.take t.2.1) + t.2.2 +
        matchTotalF fuel (a.drop (t.1 + t.2.2)) (b.drop (t.2.1 + t.2.2))

/-- Total size of all matching blocks. -/
def matchTotal (a b : List Char) : ℕ := matchTotalF (a.length + b.length) a b

/-- `SequenceMatcher.ratio()` as an exact rational (`1` when both empty). -/
def simScore (a b : List Char) : ℚ :=
  if a.length + b.length = 0 then mkRat 1 1
  else mkRat ((2 * matchTotal a b : ℕ) : ℤ) (a.length + b.length)

/-! ## DataProcessor.smart_filter_duplicates -/

/-- The duplicate test of `smart_filter_duplicates` between a kept record
`p` and a later record `q`: lower-cased stripped name similarity `≥ 0.95`
and prices within 5% of the larger one (equal when a price is `≤ 0`). -/
def isDupOf (p q : ProductRec) : Bool :=
  let n1 := pyStripList (p.product_name.toList.map pyLowerChar)
  let n2 := pyStripList (q.product_name.toList.map pyLowerChar)
  let nameSim := simScore n1 n2
  let p1 := p.price.getD 0
  let p2 := q.price.getD 0
  let priceSimilar :=
    if Rat.blt 0 p1 && Rat.blt 0 p2 then
      let mx := if Rat.blt p1 p2 then p2 else p1
      !(Rat.blt (mkRat 1 20) (qdiv (qabs (qsub p1 p2)) mx))
    else p1 == p2
  (!(Rat.blt nameSim (mkRat 19 20))) && priceSimilar

/-- The scan of one market group: a record is kept iff it is not a
duplicate of an already-kept record of the group (the `seen_indices` loop
of the source marks exactly the later records similar to a kept one). -/
def dedupScan (kept : List ProductRec) : List ProductRec → List ProductRec
  | [] => []
  | r :: rest =>
    if kept.any (fun k => isDupOf k r) then dedupScan kept rest
    else r :: dedupScan (kept ++ [r]) rest

/-- Market names in order of first appearance (Python dict insertion
order of `market_groups`). -/
def marketsInOrder (l : List ProductRec) : List String :=
  l.foldl (fun acc p => if acc.contains p.market_name then acc else acc ++ [p.market_name]) []

/-- `DataProcessor.smart_filter_duplicates`: group by market, dedup each
group by the scan, concatenate the groups in first-appearance order. -/
def smartFilterDuplicates (l : List ProductRec) : List ProductRec :=
  if l.isEmpty then l
  else
    (marketsInOrder l).flatMap
      (fun m => dedupScan [] (l.filter (fun p => p.market_name == m)))

/-! ## Sort comparators

Python `sorted(key=...)` compares key tuples lexicographically; `None`
components never occur in the keys, and `float("inf")` stands for a missing
value.  All keys that occur in the code fit into one shape:
three optional rationals (`none` = `+inf`) and a character list. -/

abbrev SortKey := Option ℚ × Option ℚ × Option ℚ × List Char

def cmpQ (a b : ℚ) : Ordering :=
  if Rat.blt a b then Ordering.lt
  else if Rat.blt b a then Ordering.gt
  else Ordering.eq

/-- Compare optional rationals where `none` is `+inf`. -/
def cmpQInf : Option ℚ → Option ℚ → Ordering
  | none, none => Ordering.eq
  | none, some _ => Ordering.gt
  | some _, none => Ordering.lt
  | some a, some b => cmpQ a b

/-- Python string comparison (code-point lexicographic; equal characters
are exactly the ones with equal code points). -/
def cmpChars : List Char → List Char → Ordering
  | [], [] => Ordering.eq
  | [], _ :: _ => Ordering.lt
  | _ :: _, [] => Ordering.gt
  | a :: al, b :: bl =>
    if a = b then cmpChars al bl
    else if Nat.blt a.toNat b.toNat then Ordering.lt
    else Ordering.gt

/-- Lexicographic combination of two comparators (Python tuple compare). -/
def cmpProd {A B : Type} (ca : A → A → Ordering) (cb : B → B → Ordering)
    (x y : A × B) : Ordering :=
  (ca x.1 y.1).then (cb x.2 y.2)

def cmpKey (x y : SortKey) : Ordering :=
  cmpProd cmpQInf (cmpProd cmpQInf (cmpProd cmpQInf cmpChars)) x y

/-- Non-strict comparison induced by a comparator. -/
def ordLe : Ordering → Bool
  | Ordering.gt => false
  | _ => true

def keyLe (x y : SortKey) : Bool := ordLe (cmpKey x y)

/-! ## Stable insertion sort (the behaviour of Python `sorted`) -/

def insertLe {α : Type} (le : α → α → Bool) (x : α) : List α → List α
  | [] => [x]
  | y :: ys => if le x y then x :: y :: ys else y :: insertLe le x ys

/-- Stable sort: equal-key elements keep their input order, as Python's
`sorted`. -/
def isort {α : Type} (le : α → α → Bool) : List α → List α
  | [] => []
  | x :: xs => insertLe le x (isort le xs)

/-! ## DataProcessor.smart_rank -/

/-- Sort key of records with unit info:
`(unit_price if not None else inf, price(default inf), product_name)`. -/
def rankUnitKey (p : ProductRec) : SortKey :=
  (p.unit_price, p.price, none, p.product_name.toList)

/-- Sort key of records without unit info: `(price(default inf), name)`. -/
def rankNoUnitKey (p : ProductRec) : SortKey :=
  (p.price, none, none, p.product_name.toList)

def rankUnitLe (p q : ProductRec) : Bool := keyLe (rankUnitKey p) (rankUnitKey q)

def rankNoUnitLe (p q : ProductRec) : Bool := keyLe (rankNoUnitKey p) (rankNoUnitKey q)

/-- `DataProcessor.smart_rank`: partition on `has_unit_info`, sort each part
by its key, records with unit info first. -/
def smartRank (l : List ProductRec) : List ProductRec :=
  isort rankUnitLe (l.filter (fun p => p.has_unit_info)) ++
    isort rankNoUnitLe (l.filter (fun p => !p.has_unit_info))

/-! ## FilterService: unit-price finalization and final sort -/

/-- Python truthiness filter for an optional number: `None` and `0` are
falsy (`p.get(k) or fallback`). -/
def truthyQ : Option ℚ → Option ℚ
  | some v => if v == 0 then none else some v
  | none => none

/-- `a or b` on optional numbers under Python truthiness. -/
def orElseQ (a b : Option ℚ) : Option ℚ :=
  match truthyQ a with
  | some v => some v
  | none => truthyQ b

/-- `FilterService._normalize_unit_price` applied to one record: fill in a
missing `unit_price` from gramaj (per 100 units) and always recompute
`normalized_price_per_kg` (per 1000 units), `None` without usable gramaj. -/
def normalizeUnitPriceStep (p : ProductRec) : ProductRec :=
  let price := p.price.getD 0
  let p1 :=
    if p.unit_price.isNone then
      match p.gramaj with
      | some g =>
        if (!(g == 0)) && Rat.blt 0 g && Rat.blt 0 price then
          { p with
            unit_price := some (pyRound2 (qmul (qdiv price g) (mkRat 100 1)))
            unit_price_per_100 := some (pyRound2 (qmul (qdiv price g) (mkRat 100 1))) }
        else p
      | none => p
    else p
  let npk : Option ℚ :=
    match p1.gramaj with
    | some g =>
      if (!(g == 0)) && Rat.blt 0 g && Rat.blt 0 price then
        some (pyRound2 (qmul (qdiv price g) (mkRat 1000 1)))
      else none
    | none => none
  { p1 with normalized_price_per_kg := npk }

/-- `FilterService._normalize_unit_price` over the list. -/
def normalizeUnitPriceAll (ps : List ProductRec) : List ProductRec :=
  ps.map normalizeUnitPriceStep

/-- The key of the final sort in `FilterService.filter_and_rank`:

    (p.get("unit_price") or p.get("unit_price_per_100") or inf,
     p.get("normalized_price_per_kg") or inf,
     p.get("price", inf))

Note the Python `or`: a present value `0` is falsy and falls through. -/
def finalKey (p : ProductRec) : SortKey :=
  (orElseQ p.unit_price p.unit_price_per_100,
    truthyQ p.normalized_price_per_kg,
    p.price,
    [])

def finalSortLe (p q : ProductRec) : Bool := keyLe (finalKey p) (finalKey q)

/-- The final `products.sort(key=...)` of `FilterService.filter_and_rank`. -/
def finalSort (ps : List ProductRec) : List ProductRec := isort finalSortLe ps

/-- Modelled from the spec: the final-sort key as the specification words
it — `(unit_price ?? +inf, normalized_price_per_kg ?? +inf, price)` where
`??` substitutes `+inf` exactly for a null/absent field and a present `0`
is used as `0`.  Stated only to compare with `finalKey` above. -/
def specFinalKey (p : ProductRec) : SortKey :=
  (p.unit_price, p.normalized_price_per_kg, p.price, [])

/-! ## BotManager: merge, deduplication, standardization, ordering -/

/-- The standardized record shape returned by `_standardize_product`. -/
structure StdRec where
  product_name : String
  price : ℚ
  gramaj : Option ℚ
  unit_price_per_kg : Option ℚ
  market_name : String
  currency : String
  image_url : Option String
deriving DecidableEq

/-- `bot_manager._parse_gramaj`: grams pattern first, then kilograms. -/
def parseGramaj (text : String) : Option ℚ :=
  if text = "" then none
  else
    let tl := (commaToDot text.toList).map pyLowerChar
    match searchNumberUnit ["gr".toList, "g".toList, "gram".toList] tl with
    | some v => some v
    | none =>
      match searchNumberUnit ["kg".toList] tl with
      | some v => some (qmul v (mkRat 1000 1))
      | none => none

/-- `bot_manager._standardize_product`. -/
def standardizeProduct (p : ProductRec) : StdRec :=
  let gramaj :=
    match p.gramaj with
    | some g => some g
    | none => parseGramaj p.product_name
  let price := pyRound2 (p.price.getD 0)
  let upkg : Option ℚ :=
    match gramaj with
    | some g =>
      if (!(g == 0)) && Rat.blt 0 g && Rat.blt 0 price then
        some (pyRound2 (qmul (qdiv price g) (mkRat 1000 1)))
      else none
    | none => none
  { product_name := p.product_name
    price := price
    gramaj := gramaj
    unit_price_per_kg := upkg
    market_name := p.market_name
    currency := p.currency
    image_url := p.image_url }

/-- The deduplication key of `search_all`:
`(market_name, product_name.strip(), round(price, 2))`. -/
def botDedupKey (p : ProductRec) : String × String × ℚ :=
  (p.market_name, pyStrip p.product_name, pyRound2 (p.price.getD 0))

/-- One successful scraper result list folded into the merge state
(`seen` keys, accumulated products). -/
def addResults (seen : List (String × String × ℚ)) (acc : List ProductRec) :
    List ProductRec → List (String × String × ℚ) × List ProductRec
  | [] => (seen, acc)
  | p :: rest =>
    let k := botDedupKey p
    if seen.contains k then addResults seen acc rest
    else addResults (k :: seen) (acc ++ [p]) rest

/-- The merge loop of `search_all` over all task outcomes: a raised
exception contributes nothing (`markets_failed` is only logged), a result
list is deduplicated against all records admitted so far. -/
def mergeOutcomes (outcomes : List (String × Except String (List ProductRec))) :
    List ProductRec :=
  (outcomes.foldl
    (fun st o =>
      match o.2 with
      | Except.error _ => st
      | Except.ok items => addResults st.1 st.2 items)
    ([], [])).2

/-- Key of the final ordering of `search_all`:
`(float(x.get("price", 0)), x.get("product_name", ""))`. -/
def botSortKey (r : StdRec) : SortKey :=
  (some r.price, none, none, r.product_name.toList)

def botSortLe (r s : StdRec) : Bool := keyLe (botSortKey r) (botSortKey s)

/-- `BotManager.search_all` with `standardize=True`, over the outcomes of
the already-settled scraper tasks (one outcome per `(scraper, term)` task:
either an exception or a raw result list). -/
def searchAll (query : String)
    (outcomes : List (String × Except String (List ProductRec))) :
    String × List StdRec :=
  (query, isort botSortLe ((mergeOutcomes outcomes).map standardizeProduct))

/-- The dict returned by `BotManager.search_all_markets` (exactly these
four keys). -/
structure SearchAllMarketsResult where
  query : String
  results : List StdRec
  markets_responded : List String
  total_products : ℕ
deriving DecidableEq

/-- Keep-first deduplication of a string list (`set()` membership in
insertion order). -/
def dedupFirst (l : List String) : List String :=
  l.foldl (fun acc s => if acc.contains s then acc else acc ++ [s]) []

/-- Python `sorted` on strings (code-point ascending). -/
def strLeb (a b : String) : Bool := ordLe (cmpChars a.toList b.toList)

/-- `BotManager.search_all_markets`: wraps `search_all`; the responded
markets are the distinct non-empty market names of the results, sorted;
failed market names are logged inside `search_all` but not returned. -/
def searchAllMarkets (query : String)
    (outcomes : List (String × Except String (List ProductRec))) :
    SearchAllMarketsResult :=
  let r := searchAll query outcomes
  { query := r.1
    results := r.2
    markets_responded :=
      isort strLeb (dedupFirst ((r.2.map (fun p => p.market_name)).filter
        (fun m => !(m == ""))))
    total_products := r.2.length }

/-! ## ŞOK scraper: balanced-brace extraction and result truncation -/

/-- The scan of `SokScraper._extract_balanced_json`: character loop with a
brace counter, a string flag and an escape flag; stops right after the
closing brace that takes the counter to `0`, returning how many characters
were consumed. -/
def ebjScan : List Char → Int → Bool → Bool → ℕ → Option ℕ
  | [], _, _, _, _ => none
  | c :: rest, depth, inStr, esc, n =>
    if esc then ebjScan rest depth inStr false (n + 1)
    else if c = backslashChar then ebjScan rest depth inStr true (n + 1)
    else if c = quoteChar then ebjScan rest depth (!inStr) esc (n + 1)
    else if (!inStr) && c = braceOpen then ebjScan rest (depth + 1) inStr esc (n + 1)
    else if (!inStr) && c = braceClose then
      if depth - 1 = 0 then some (n + 1)
      else ebjScan rest (depth - 1) inStr esc (n + 1)
    else ebjScan rest depth inStr esc (n + 1)

/-- `SokScraper._extract_balanced_json(text, start_idx, max_length)`
(`max_length = 0` means no limit). -/
def extractBalancedJson (text : List Char) (startIdx : ℕ) (maxLength : ℕ) :
    Option (List Char) :=
  let maxPos := if maxLength = 0 then text.length else min (startIdx + maxLength) text.length
  let seg := (text.drop startIdx).take (maxPos - startIdx)
  match ebjScan seg 0 false false 0 with
  | some endLen => some (seg.take endLen)
  | none => none

/-- The result assembly of `SokScraper._search_rsc` around an abstract
per-item parser: at most the first 60 raw items are parsed, a failing or
filtered item contributes nothing, and the collected list is truncated to
its first 30 records before being returned (and cached). -/
def sokCollect {α : Type} (parseItem : α → Option ProductRec) (items : List α) :
    List ProductRec :=
  (((items.take 60).filterMap parseItem).take 30)

/-- `SokScraper.search_product`: a non-empty cache entry is returned as-is,
otherwise the live result (which `search_product` also writes to the cache
when non-empty). -/
def sokSearchProduct (cached : Option (List ProductRec)) (live : List ProductRec) :
    List ProductRec :=
  match cached with
  | some c => if !c.isEmpty then c else live
  | none => live

/-! ## Balanced JSON objects

A well-formedness grammar for the objects the balanced-brace scanner is
meant to extract, written independently of the scanner.  An object is an
opening brace, an interior and a closing brace.  An interior is a sequence
of tokens: a plain character (no brace, quote or backslash), a
backslash-escaped character (any), a double-quoted string (whose body may
contain any characters — braces included — with quotes and backslashes
only in backslash-escaped position), or a nested balanced object. -/

/-- Body of a double-quoted string: quote and backslash characters occur
only backslash-escaped. -/
inductive StrBody : List Char → Prop
  | nil : StrBody []
  | chr {c : Char} {cs : List Char} : c ≠ quoteChar → c ≠ backslashChar →
      StrBody cs → StrBody (c :: cs)
  | esc {c : Char} {cs : List Char} : StrBody cs →
      StrBody (backslashChar :: c :: cs)

/-- Interior of a balanced object: a sequence of tokens. -/
inductive ObjBody : List Char → Prop
  | nil : ObjBody []
  | plain {c : Char} {rest : List Char} : c ≠ braceOpen → c ≠ braceClose →
      c ≠ quoteChar → c ≠ backslashChar → ObjBody rest → ObjBody (c :: rest)
  | esc {c : Char} {rest : List Char} : ObjBody rest →
      ObjBody (backslashChar :: c :: rest)
  | str {body rest : List Char} : StrBody body → ObjBody rest →
      ObjBody (quoteChar :: body ++ quoteChar :: rest)
  | obj {body rest : List Char} : ObjBody body → ObjBody rest →
      ObjBody (braceOpen :: body ++ braceClose :: rest)

/-- A balanced object: a brace-wrapped interior. -/
inductive BalancedObj : List Char → Prop
  | mk {body : List Char} : ObjBody body →
      BalancedObj (braceOpen :: body ++ [braceClose])

/-- The payload object of the specification:
`{"a": "value with } and \" inside", "b": {"c": 1}}`. -/
def sokPayloadObj : String :=
  "\x7b\"a\": \"value with \x7d and \\\" inside\", \"b\": \x7b\"c\": 1\x7d\x7d"

/-! ## Concrete fixture records used by the closed evaluations -/

/-- A record whose name yields gramaj 500 g, price 15.00. -/
def peynirRec : ProductRec :=
  { product_name := "Beyaz Peynir 500 g", price := some (mkRat 15 1), market_name := "Migros" }

/-- A 32-roll pack at price 64.00. -/
def rulaRec : ProductRec :=
  { product_name := "Tuvalet Kağıdı 32 Rulo", price := some (mkRat 64 1), market_name := "A101" }

/-- A record whose name contains the degenerate quantity `0 g`. -/
def zeroGramRec : ProductRec :=
  { product_name := "Süt 0 g", price := some (mkRat 10 1), market_name := "ŞOK" }

/-- Same market, identical names, prices 100 / 96 / 92: a non-transitive
similarity chain (100~96, 96~92, but not 100~92). -/
def chainRecA : ProductRec :=
  { product_name := "süt", price := some (mkRat 100 1), market_name := "Migros" }

def chainRecB : ProductRec :=
  { product_name := "süt", price := some (mkRat 96 1), market_name := "Migros" }

def chainRecC : ProductRec :=
  { product_name := "süt", price := some (mkRat 92 1), market_name := "Migros" }

/-- 10 kg of rice at 0.01 TL: its computed unit_price and
normalized_price_per_kg both round to 0.0. -/
def cheapBulkRec : ProductRec :=
  { product_name := "Pirinç 10 kg", price := some (mkRat 1 100), market_name := "Migros" }

/-- 500 g at 5.00 TL: unit_price 1.0, normalized_price_per_kg 10.0. -/
def smallPackRec : ProductRec :=
  { product_name := "Beyaz Peynir 500 g", price := some (mkRat 5 1), market_name := "A101" }

/-- The full normalizer-plus-filter unit-price pipeline applied to one
record: `normalize_product`, `calculate_unit_price`, then the filter's
`_normalize_unit_price`. -/
def unitPricePipeline (p : ProductRec) : ProductRec :=
  normalizeUnitPriceStep (calculateUnitPrice (normalizeProduct p))

/-! ## Theorems

First the correctness of the kernel-reducible arithmetic helpers, then
generic facts about the comparators and the stable insertion sort, then the
results about the embedded pipeline. -/

theorem qmul_eq (a b : ℚ) : qmul a b = a * b := by
  rw [qmul, Rat.mkRat_eq_div]
  push_cast
  conv_rhs => rw [← Rat.num_div_den a, ← Rat.num_div_den b]
  rw [div_mul_div_comm]

theorem qinv_eq (b : ℚ) : qinv b = b⁻¹ := by
  rcases lt_trichotomy b.num 0 with h | h | h
  · rw [qinv, Int.sign_eq_neg_one_of_neg h, Rat.mkRat_eq_div]
    conv_rhs => rw [← Rat.num_div_den b]
    rw [inv_div]
    push_cast
    have hna : ((b.num.natAbs : ℚ)) = -(b.num : ℚ) := by
      rw [Int.cast_natAbs]
      exact_mod_cast abs_of_neg h
    rw [hna, mul_neg_one, neg_div_neg_eq]
  · have hb : b = 0 := by
      rwa [Rat.num_eq_zero] at h
    subst hb
    rw [qinv]
    norm_num
  · rw [qinv, Int.sign_eq_one_of_pos h, Rat.mkRat_eq_div]
    conv_rhs => rw [← Rat.num_div_den b]
    rw [inv_div]
    push_cast
    have hna : ((b.num.natAbs : ℚ)) = (b.num : ℚ) := by
      rw [Int.cast_natAbs]
      exact_mod_cast abs_of_pos h
    rw [hna, mul_one]

theorem qdiv_eq (a b : ℚ) : qdiv a b = a / b := by
  rw [qdiv, qmul_eq, qinv_eq, div_eq_mul_inv]

theorem qsub_eq (a b : ℚ) : qsub a b = a - b := by
  have had : ((a.den : ℚ)) ≠ 0 := by
    exact_mod_cast a.den_nz
  have hbd : ((b.den : ℚ)) ≠ 0 := by
    exact_mod_cast b.den_nz
  rw [qsub, Rat.mkRat_eq_div]
  conv_rhs => rw [← Rat.num_div_den a, ← Rat.num_div_den b]
  rw [div_sub_div _ _ had hbd]
  push_cast
  ring_nf

theorem qabs_eq (a : ℚ) : qabs a = |a| := by
  rcases le_or_lt 0 a.num with h | h
  · rw [qabs, Int.natAbs_of_nonneg h, Rat.mkRat_self,
      abs_of_nonneg (by rwa [← Rat.num_nonneg])]
  · rw [qabs, Int.ofNat_natAbs_of_nonpos h.le,
      abs_of_neg (by rwa [← Rat.num_neg])]
    rw [← Rat.neg_mkRat, Rat.mkRat_self]

/-- Boolean strict comparison used by the embedded program; it is
definitionally the order on `ℚ`. -/
theorem qblt_iff (a b : ℚ) : Rat.blt a b = true ↔ a < b := Eq.to_iff rfl

theorem mkRat_int (n : ℤ) : (mkRat n 1 : ℚ) = (n : ℚ) := by
  rw [Rat.mkRat_one]

/-! ### Comparator laws -/

theorem char_toNat_inj {a b : Char} (h : a.toNat = b.toNat) : a = b :=
  Char.eq_of_val_eq (UInt32.ext h)

theorem cmpQ_spec (a b : ℚ) :
    (a < b ∧ cmpQ a b = Ordering.lt) ∨ (a = b ∧ cmpQ a b = Ordering.eq) ∨
      (b < a ∧ cmpQ a b = Ordering.gt) := by
  rcases lt_trichotomy a b with h | h | h
  · exact Or.inl ⟨h, by rw [cmpQ, if_pos ((qblt_iff a b).mpr h)]⟩
  · refine Or.inr (Or.inl ⟨h, ?_⟩)
    subst h
    rw [cmpQ, if_neg (by rw [qblt_iff]; exact lt_irrefl a),
      if_neg (by rw [qblt_iff]; exact lt_irrefl a)]
  · refine Or.inr (Or.inr ⟨h, ?_⟩)
    rw [cmpQ, if_neg (by rw [qblt_iff]; exact not_lt.mpr h.le),
      if_pos ((qblt_iff b a).mpr h)]

theorem cmpQ_lt_iff {a b : ℚ} : cmpQ a b = Ordering.lt ↔ a < b := by
  rcases cmpQ_spec a b with ⟨h, e⟩ | ⟨h, e⟩ | ⟨h, e⟩ <;> rw [e]
  · simp [h]
  · subst h
    simp [lt_irrefl]
  · simp [lt_asymm h]

theorem cmpQ_gt_iff {a b : ℚ} : cmpQ a b = Ordering.gt ↔ b < a := by
  rcases cmpQ_spec a b with ⟨h, e⟩ | ⟨h, e⟩ | ⟨h, e⟩ <;> rw [e]
  · simp [lt_asymm h]
  · subst h
    simp [lt_irrefl]
  · simp [h]

theorem cmpQ_eq_iff {a b : ℚ} : cmpQ a b = Ordering.eq ↔ a = b := by
  rcases cmpQ_spec a b with ⟨h, e⟩ | ⟨h, e⟩ | ⟨h, e⟩ <;> rw [e]
  · simp [h.ne]
  · simp [h]
  · simp [h.ne']

theorem cmpQ_refl (a : ℚ) : cmpQ a a = Ordering.eq := cmpQ_eq_iff.mpr rfl

theorem cmpQ_swap (a b : ℚ) : cmpQ a b = (cmpQ b a).swap := by
  rcases cmpQ_spec a b with ⟨h, e⟩ | ⟨h, e⟩ | ⟨h, e⟩ <;> rw [e]
  · rw [cmpQ_gt_iff.mpr h]
    rfl
  · rw [cmpQ_eq_iff.mpr h.symm]
    rfl
  · rw [cmpQ_lt_iff.mpr h]
    rfl

theorem cmpQ_lt_trans {a b c : ℚ} (h1 : cmpQ a b = Ordering.lt)
    (h2 : cmpQ b c = Ordering.lt) : cmpQ a c = Ordering.lt :=
  cmpQ_lt_iff.mpr ((cmpQ_lt_iff.mp h1).trans (cmpQ_lt_iff.mp h2))

theorem cmpQInf_eq {a b : Option ℚ} (h : cmpQInf a b = Ordering.eq) : a = b := by
  match a, b with
  | none, none => rfl
  | none, some _ => exact absurd h (by rw [cmpQInf]; simp)
  | some _, none => exact absurd h (by rw [cmpQInf]; simp)
  | some x, some y =>
    rw [cmpQInf] at h
    rw [cmpQ_eq_iff.mp h]

theorem cmpQInf_swap (a b : Option ℚ) : cmpQInf a b = (cmpQInf b a).swap := by
  match a, b with
  | none, none => rfl
  | none, some _ => rfl
  | some _, none => rfl
  | some x, some y => rw [cmpQInf, cmpQInf]; exact cmpQ_swap x y

theorem cmpQInf_lt_trans {a b c : Option ℚ} (h1 : cmpQInf a b = Ordering.lt)
    (h2 : cmpQInf b c = Ordering.lt) : cmpQInf a c = Ordering.lt := by
  match a, b, c with
  | none, none, _ => exact absurd h1 (by rw [cmpQInf]; simp)
  | none, some _, _ => exact absurd h1 (by rw [cmpQInf]; simp)
  | some _, none, none => exact absurd h2 (by rw [cmpQInf]; simp)
  | some _, none, some _ => exact absurd h2 (by rw [cmpQInf]; simp)
  | some x, some y, none => rfl
  | some x, some y, some z =>
    rw [cmpQInf] at h1 h2 ⊢
    exact cmpQ_lt_trans h1 h2

theorem cmpChars_cons_of_eq {a b : Char} (h : a = b) (al bl : List Char) :
    cmpChars (a :: al) (b :: bl) = cmpChars al bl := by
  rw [cmpChars, if_pos h]

theorem cmpChars_cons_of_lt {a b : Char} (h : a.toNat < b.toNat) (al bl : List Char) :
    cmpChars (a :: al) (b :: bl) = Ordering.lt := by
  have hne : ¬ a = b := by
    intro e
    rw [e] at h
    omega
  rw [cmpChars, if_neg hne, if_pos (by rwa [Nat.blt_eq])]

theorem cmpChars_cons_of_gt {a b : Char} (h : b.toNat < a.toNat) (al bl : List Char) :
    cmpChars (a :: al) (b :: bl) = Ordering.gt := by
  have hne : ¬ a = b := by
    intro e
    rw [e] at h
    omega
  rw [cmpChars, if_neg hne, if_neg (by rw [Nat.blt_eq]; omega)]

theorem cmpChars_eq : ∀ {a b : List Char}, cmpChars a b = Ordering.eq → a = b
  | [], [], _ => rfl
  | [], _ :: _, h => absurd h (by rw [cmpChars]; simp)
  | _ :: _, [], h => absurd h (by rw [cmpChars]; simp)
  | a :: al, b :: bl, h => by
    rcases Nat.lt_trichotomy a.toNat b.toNat with hab | hab | hab
    · rw [cmpChars_cons_of_lt hab] at h
      exact absurd h (by simp)
    · have e : a = b := char_toNat_inj hab
      subst e
      rw [cmpChars_cons_of_eq rfl] at h
      rw [cmpChars_eq h]
    · rw [cmpChars_cons_of_gt hab] at h
      exact absurd h (by simp)

theorem cmpChars_swap : ∀ (a b : List Char), cmpChars a b = (cmpChars b a).swap
  | [], [] => rfl
  | [], _ :: _ => rfl
  | _ :: _, [] => rfl
  | a :: al, b :: bl => by
    rcases Nat.lt_trichotomy a.toNat b.toNat with h | h | h
    · rw [cmpChars_cons_of_lt h, cmpChars_cons_of_gt h]
      rfl
    · have hab : a = b := char_toNat_inj h
      subst hab
      rw [cmpChars_cons_of_eq rfl, cmpChars_cons_of_eq rfl]
      exact cmpChars_swap al bl
    · rw [cmpChars_cons_of_gt h, cmpChars_cons_of_lt h]
      rfl

theorem cmpChars_lt_trans : ∀ {a b c : List Char}, cmpChars a b = Ordering.lt →
    cmpChars b c = Ordering.lt → cmpChars a c = Ordering.lt
  | [], [], _, h1, _ => absurd h1 (by rw [cmpChars]; simp)
  | _ :: _, [], _, h1, _ => absurd h1 (by rw [cmpChars]; simp)
  | [], _ :: _, [], _, h2 => absurd h2 (by rw [cmpChars]; simp)
  | [], _ :: _, _ :: _, _, _ => by rw [cmpChars]
  | a :: al, b :: bl, [], _, h2 => absurd h2 (by rw [cmpChars]; simp)
  | a :: al, b :: bl, c :: cl, h1, h2 => by
    rcases Nat.lt_trichotomy a.toNat b.toNat with hab | hab | hab
    · rcases Nat.lt_trichotomy b.toNat c.toNat with hbc | hbc | hbc
      · exact cmpChars_cons_of_lt (by omega) al cl
      · exact cmpChars_cons_of_lt (by omega) al cl
      · rw [cmpChars_cons_of_gt hbc] at h2
        exact absurd h2 (by simp)
    · have e : a = b := char_toNat_inj hab
      subst e
      rw [cmpChars_cons_of_eq rfl] at h1
      rcases Nat.lt_trichotomy a.toNat c.toNat with hac | hac | hac
      · exact cmpChars_cons_of_lt hac al cl
      · have e2 : a = c := char_toNat_inj hac
        subst e2
        rw [cmpChars_cons_of_eq rfl] at h2 ⊢
        exact cmpChars_lt_trans h1 h2
      · rw [cmpChars_cons_of_gt hac] at h2
        exact absurd h2 (by simp)
    · rw [cmpChars_cons_of_gt hab] at h1
      exact absurd h1 (by simp)

theorem then_lt_iff {o1 o2 : Ordering} :
    o1.then o2 = Ordering.lt ↔ o1 = Ordering.lt ∨ (o1 = Ordering.eq ∧ o2 = Ordering.lt) := by
  cases o1 <;> simp [Ordering.then]

theorem then_eq_iff {o1 o2 : Ordering} :
    o1.then o2 = Ordering.eq ↔ o1 = Ordering.eq ∧ o2 = Ordering.eq := by
  cases o1 <;> simp [Ordering.then]

theorem then_swap (o1 o2 : Ordering) : (o1.then o2).swap = o1.swap.then o2.swap := by
  cases o1 <;> cases o2 <;> rfl

theorem cmpQInf_refl (a : Option ℚ) : cmpQInf a a = Ordering.eq := by
  match a with
  | none => rfl
  | some x => rw [cmpQInf]; exact cmpQ_refl x

theorem cmpChars_refl : ∀ (a : List Char), cmpChars a a = Ordering.eq
  | [] => rfl
  | c :: cl => by rw [cmpChars_cons_of_eq rfl]; exact cmpChars_refl cl

theorem cmpProd_refl {A B : Type} {ca : A → A → Ordering} {cb : B → B → Ordering}
    (hra : ∀ u, ca u u = Ordering.eq) (hrb : ∀ u, cb u u = Ordering.eq)
    (x : A × B) : cmpProd ca cb x x = Ordering.eq := by
  rw [cmpProd, hra, hrb]
  rfl

theorem cmpProd_eq {A B : Type} {ca : A → A → Ordering} {cb : B → B → Ordering}
    (hea : ∀ u v, ca u v = Ordering.eq → u = v)
    (heb : ∀ u v, cb u v = Ordering.eq → u = v)
    {x y : A × B} (h : cmpProd ca cb x y = Ordering.eq) : x = y := by
  rw [cmpProd, then_eq_iff] at h
  exact Prod.ext (hea _ _ h.1) (heb _ _ h.2)

theorem cmpProd_swap {A B : Type} {ca : A → A → Ordering} {cb : B → B → Ordering}
    (hsa : ∀ u v, ca u v = (ca v u).swap) (hsb : ∀ u v, cb u v = (cb v u).swap)
    (x y : A × B) : cmpProd ca cb x y = (cmpProd ca cb y x).swap := by
  rw [cmpProd, cmpProd, then_swap, ← hsa, ← hsb]

theorem cmpProd_lt_trans {A B : Type} {ca : A → A → Ordering} {cb : B → B → Ordering}
    (hea : ∀ u v, ca u v = Ordering.eq → u = v)
    (hta : ∀ u v w, ca u v = Ordering.lt → ca v w = Ordering.lt → ca u w = Ordering.lt)
    (hra : ∀ u, ca u u = Ordering.eq)
    (htb : ∀ u v w, cb u v = Ordering.lt → cb v w = Ordering.lt → cb u w = Ordering.lt)
    {x y z : A × B} (h1 : cmpProd ca cb x y = Ordering.lt)
    (h2 : cmpProd ca cb y z = Ordering.lt) : cmpProd ca cb x z = Ordering.lt := by
  rw [cmpProd, then_lt_iff] at h1 h2 ⊢
  rcases h1 with h1 | ⟨h1e, h1r⟩
  · rcases h2 with h2 | ⟨h2e, h2r⟩
    · exact Or.inl (hta _ _ _ h1 h2)
    · left
      rw [← hea _ _ h2e]
      exact h1
  · rcases h2 with h2 | ⟨h2e, h2r⟩
    · left
      rw [hea _ _ h1e]
      exact h2
    · right
      refine ⟨?_, htb _ _ _ h1r h2r⟩
      rw [hea _ _ h1e, ← hea _ _ h2e]
      exact hra _

theorem cmpL1_eq (u v : Option ℚ × List Char)
    (h : cmpProd cmpQInf cmpChars u v = Ordering.eq) : u = v :=
  cmpProd_eq (fun _ _ => cmpQInf_eq) (fun _ _ => cmpChars_eq) h

theorem cmpL1_swap (u v : Option ℚ × List Char) :
    cmpProd cmpQInf cmpChars u v = (cmpProd cmpQInf cmpChars v u).swap :=
  cmpProd_swap cmpQInf_swap cmpChars_swap u v

theorem cmpL1_refl (u : Option ℚ × List Char) :
    cmpProd cmpQInf cmpChars u u = Ordering.eq :=
  cmpProd_refl cmpQInf_refl cmpChars_refl u

theorem cmpL1_lt_trans (u v w : Option ℚ × List Char)
    (h1 : cmpProd cmpQInf cmpChars u v = Ordering.lt)
    (h2 : cmpProd cmpQInf cmpChars v w = Ordering.lt) :
    cmpProd cmpQInf cmpChars u w = Ordering.lt :=
  cmpProd_lt_trans (fun _ _ => cmpQInf_eq)
    (fun (u1 v1 w1 : Option ℚ) (ha : cmpQInf u1 v1 = Ordering.lt)
        (hb : cmpQInf v1 w1 = Ordering.lt) => cmpQInf_lt_trans ha hb)
    cmpQInf_refl
    (fun (u2 v2 w2 : List Char) (ha : cmpChars u2 v2 = Ordering.lt)
        (hb : cmpChars v2 w2 = Ordering.lt) => cmpChars_lt_trans ha hb)
    h1 h2

theorem cmpL2_eq (u v : Option ℚ × Option ℚ × List Char)
    (h : cmpProd cmpQInf (cmpProd cmpQInf cmpChars) u v = Ordering.eq) : u = v :=
  cmpProd_eq (fun _ _ => cmpQInf_eq) cmpL1_eq h

theorem cmpL2_swap (u v : Option ℚ × Option ℚ × List Char) :
    cmpProd cmpQInf (cmpProd cmpQInf cmpChars) u v =
      (cmpProd cmpQInf (cmpProd cmpQInf cmpChars) v u).swap :=
  cmpProd_swap cmpQInf_swap cmpL1_swap u v

theorem cmpL2_refl (u : Option ℚ × Option ℚ × List Char) :
    cmpProd cmpQInf (cmpProd cmpQInf cmpChars) u u = Ordering.eq :=
  cmpProd_refl cmpQInf_refl cmpL1_refl u

theorem cmpL2_lt_trans (u v w : Option ℚ × Option ℚ × List Char)
    (h1 : cmpProd cmpQInf (cmpProd cmpQInf cmpChars) u v = Ordering.lt)
    (h2 : cmpProd cmpQInf (cmpProd cmpQInf cmpChars) v w = Ordering.lt) :
    cmpProd cmpQInf (cmpProd cmpQInf cmpChars) u w = Ordering.lt :=
  cmpProd_lt_trans (fun _ _ => cmpQInf_eq)
    (fun (u1 v1 w1 : Option ℚ) (ha : cmpQInf u1 v1 = Ordering.lt)
        (hb : cmpQInf v1 w1 = Ordering.lt) => cmpQInf_lt_trans ha hb)
    cmpQInf_refl
    cmpL1_lt_trans h1 h2

theorem cmpKey_eq {x y : SortKey} (h : cmpKey x y = Ordering.eq) : x = y := by
  rw [cmpKey] at h
  exact cmpProd_eq (fun _ _ => cmpQInf_eq) cmpL2_eq h

theorem cmpKey_swap (x y : SortKey) : cmpKey x y = (cmpKey y x).swap := by
  rw [cmpKey, cmpKey]
  exact cmpProd_swap cmpQInf_swap cmpL2_swap x y

theorem cmpKey_refl (x : SortKey) : cmpKey x x = Ordering.eq := by
  rw [cmpKey]
  exact cmpProd_refl cmpQInf_refl cmpL2_refl x

theorem cmpKey_lt_trans {x y z : SortKey} (h1 : cmpKey x y = Ordering.lt)
    (h2 : cmpKey y z = Ordering.lt) : cmpKey x z = Ordering.lt := by
  rw [cmpKey] at h1 h2 ⊢
  exact cmpProd_lt_trans (fun _ _ => cmpQInf_eq)
    (fun (u1 v1 w1 : Option ℚ) (ha : cmpQInf u1 v1 = Ordering.lt)
        (hb : cmpQInf v1 w1 = Ordering.lt) => cmpQInf_lt_trans ha hb)
    cmpQInf_refl
    cmpL2_lt_trans h1 h2

theorem keyLe_total (x y : SortKey) : keyLe x y = true ∨ keyLe y x = true := by
  rw [keyLe, keyLe, cmpKey_swap x y]
  rcases cmpKey y x with _ | _ | _
  · right
    rfl
  · left
    rfl
  · left
    rfl

theorem keyLe_trans {x y z : SortKey} (h1 : keyLe x y = true) (h2 : keyLe y z = true) :
    keyLe x z = true := by
  rw [keyLe] at h1 h2 ⊢
  rcases ho1 : cmpKey x y with _ | _ | _ <;> rw [ho1] at h1
  · rcases ho2 : cmpKey y z with _ | _ | _ <;> rw [ho2] at h2
    · rw [cmpKey_lt_trans ho1 ho2]
      rfl
    · rw [← cmpKey_eq ho2, ho1]
      rfl
    · exact absurd h2 (by simp [ordLe])
  · rw [cmpKey_eq ho1]
    exact h2
  · exact absurd h1 (by simp [ordLe])

/-! ### Stable insertion sort: permutation and sortedness -/

theorem insertLe_perm {α : Type} (le : α → α → Bool) (x : α) :
    ∀ (l : List α), (insertLe le x l).Perm (x :: l)
  | [] => List.Perm.refl _
  | y :: ys => by
    rw [insertLe]
    by_cases h : le x y
    · rw [if_pos h]
    · rw [if_neg h]
      exact (List.Perm.cons y (insertLe_perm le x ys)).trans (List.Perm.swap x y ys)

theorem isort_perm {α : Type} (le : α → α → Bool) : ∀ (l : List α), (isort le l).Perm l
  | [] => List.Perm.refl _
  | x :: xs => by
    rw [isort]
    exact (insertLe_perm le x (isort le xs)).trans (List.Perm.cons x (isort_perm le xs))

theorem mem_isort {α : Type} {le : α → α → Bool} {l : List α} {a : α} :
    a ∈ isort le l ↔ a ∈ l :=
  (isort_perm le l).mem_iff

theorem insertLe_pairwise {α : Type} {le : α → α → Bool}
    (htot : ∀ a b, le a b = true ∨ le b a = true)
    (htrans : ∀ a b c, le a b = true → le b c = true → le a c = true)
    (x : α) : ∀ {l : List α}, l.Pairwise (fun a b => le a b = true) →
      (insertLe le x l).Pairwise (fun a b => le a b = true)
  | [], _ => by
    rw [insertLe]
    exact List.pairwise_singleton _ _
  | y :: ys, hp => by
    rw [insertLe]
    rcases List.pairwise_cons.mp hp with ⟨hy, hys⟩
    by_cases h : le x y
    · rw [if_pos h]
      refine List.pairwise_cons.mpr ⟨?_, hp⟩
      intro z hz
      rcases List.mem_cons.mp hz with hz | hz
      · rw [hz]
        exact h
      · exact htrans x y z h (hy z hz)
    · rw [if_neg h]
      refine List.pairwise_cons.mpr ⟨?_, insertLe_pairwise htot htrans x hys⟩
      intro z hz
      rcases List.mem_cons.mp ((insertLe_perm le x ys).mem_iff.mp hz) with hz2 | hz2
      · rw [hz2]
        rcases htot x y with ht | ht
        · exact absurd ht h
        · exact ht
      · exact hy z hz2

theorem isort_pairwise {α : Type} {le : α → α → Bool}
    (htot : ∀ a b, le a b = true ∨ le b a = true)
    (htrans : ∀ a b c, le a b = true → le b c = true → le a c = true) :
    ∀ (l : List α), (isort le l).Pairwise (fun a b => le a b = true)
  | [] => List.Pairwise.nil
  | x :: xs => by
    rw [isort]
    exact insertLe_pairwise htot htrans x (isort_pairwise htot htrans xs)

/-- Pairwise holds when the relation holds between any two members. -/
theorem pairwise_of_mem {α : Type} {R : α → α → Prop} :
    ∀ {l : List α}, (∀ a ∈ l, ∀ b ∈ l, R a b) → l.Pairwise R
  | [], _ => List.Pairwise.nil
  | x :: xs, h => by
    refine List.pairwise_cons.mpr ⟨?_, ?_⟩
    · intro z hz
      exact h x (List.mem_cons_self x xs) z (List.mem_cons_of_mem x hz)
    · exact pairwise_of_mem (fun a ha b hb =>
        h a (List.mem_cons_of_mem x ha) b (List.mem_cons_of_mem x hb))

/-! ### Claims -/

/-- Claim C2: for every raw numeric price value `v`, the scraper
price-sanity conversion returns `round(v/100, 2)` when `v > 1000` and
`round(v, 2)` otherwise; in particular `safe_price(18995) == 189.95`,
`safe_price(45.5) == 45.5`, and a value of exactly `1000` is accepted
as-is (not divided). -/
theorem C2_safe_price_conversion :
    (∀ v : ℚ, 1000 < v → safePrice v = pyRound2 (v / 100)) ∧
    (∀ v : ℚ, v ≤ 1000 → safePrice v = pyRound2 v) ∧
    safePrice (mkRat 18995 1) = mkRat 18995 100 ∧
    (mkRat 18995 1 : ℚ) = 18995 ∧ (mkRat 18995 100 : ℚ) = 189.95 ∧
    safePrice (mkRat 91 2) = mkRat 91 2 ∧ (mkRat 91 2 : ℚ) = 45.5 ∧
    safePrice (mkRat 1000 1) = mkRat 1000 1 ∧ (mkRat 1000 1 : ℚ) = 1000 := by
  have h1000 : (mkRat 1000 1 : ℚ) = 1000 := by
    rw [mkRat_int]
    norm_num
  have h100 : (mkRat 100 1 : ℚ) = 100 := by
    rw [mkRat_int]
    norm_num
  refine ⟨?_, ?_, by decide, ?_, ?_, by decide, ?_, by decide, h1000⟩
  · intro v hv
    rw [safePrice, if_pos (by rw [qblt_iff, h1000]; exact hv), qdiv_eq, h100]
  · intro v hv
    rw [safePrice, if_neg (by rw [qblt_iff, h1000]; exact not_lt.mpr hv)]
  · rw [mkRat_int]
    norm_num
  · norm_num [mkRat, Rat.normalize]
  · norm_num [mkRat, Rat.normalize]

/-- Witness for C2: the conversion branch at the concrete value 18995. -/
theorem C2_safe_price_conversion_witness :
    (1000 : ℚ) < mkRat 18995 1 ∧
      safePrice (mkRat 18995 1) = pyRound2 (mkRat 18995 1 / 100) :=
  ⟨by decide, C2_safe_price_conversion.1 (mkRat 18995 1) (by decide)⟩

/-! ### The balanced-brace scanner extracts exactly a balanced object -/

theorem ebjStep_esc (c : Char) (rest : List Char) (d : Int) (i : Bool) (n : ℕ) :
    ebjScan (c :: rest) d i true n = ebjScan rest d i false (n + 1) := by
  rw [ebjScan]
  simp

theorem ebjStep_backslash (rest : List Char) (d : Int) (i : Bool) (n : ℕ) :
    ebjScan (backslashChar :: rest) d i false n = ebjScan rest d i true (n + 1) := by
  rw [ebjScan]
  simp

theorem ebjStep_quote (rest : List Char) (d : Int) (i : Bool) (n : ℕ) :
    ebjScan (quoteChar :: rest) d i false n = ebjScan rest d (!i) false (n + 1) := by
  rw [ebjScan]
  simp [quoteChar, backslashChar]

theorem ebjStep_open (rest : List Char) (d : Int) (n : ℕ) :
    ebjScan (braceOpen :: rest) d false false n = ebjScan rest (d + 1) false false (n + 1) := by
  rw [ebjScan]
  simp [braceOpen, quoteChar, backslashChar]

theorem ebjStep_close (rest : List Char) (d : Int) (n : ℕ) :
    ebjScan (braceClose :: rest) d false false n =
      if d - 1 = 0 then some (n + 1) else ebjScan rest (d - 1) false false (n + 1) := by
  rw [ebjScan]
  simp [braceOpen, braceClose, quoteChar, backslashChar]

theorem ebjStep_inStr (c : Char) (rest : List Char) (d : Int) (n : ℕ)
    (h1 : c ≠ quoteChar) (h2 : c ≠ backslashChar) :
    ebjScan (c :: rest) d true false n = ebjScan rest d true false (n + 1) := by
  rw [ebjScan]
  simp [h1, h2]

theorem ebjStep_plain (c : Char) (rest : List Char) (d : Int) (n : ℕ)
    (h1 : c ≠ quoteChar) (h2 : c ≠ backslashChar)
    (h3 : c ≠ braceOpen) (h4 : c ≠ braceClose) :
    ebjScan (c :: rest) d false false n = ebjScan rest d false false (n + 1) := by
  rw [ebjScan]
  simp [h1, h2, h3, h4]

theorem ebjStep_quote_open (rest : List Char) (d : Int) (n : ℕ) :
    ebjScan (quoteChar :: rest) d false false n = ebjScan rest d true false (n + 1) := by
  rw [ebjStep_quote]
  rfl

theorem ebjStep_quote_close (rest : List Char) (d : Int) (n : ℕ) :
    ebjScan (quoteChar :: rest) d true false n = ebjScan rest d false false (n + 1) := by
  rw [ebjStep_quote]
  rfl

theorem scanStrBody : ∀ {b : List Char}, StrBody b → ∀ (rest : List Char) (d : Int) (n : ℕ),
    ebjScan (b ++ rest) d true false n = ebjScan rest d true false (n + b.length)
  | _, StrBody.nil, rest, d, n => by simp
  | _, StrBody.chr h1 h2 hb, rest, d, n => by
    rw [List.cons_append, ebjStep_inStr _ _ _ _ h1 h2, scanStrBody hb rest d (n + 1)]
    congr 1
    simp
    omega
  | _, StrBody.esc hb, rest, d, n => by
    rw [List.cons_append, List.cons_append, ebjStep_backslash, ebjStep_esc,
      scanStrBody hb rest d (n + 1 + 1)]
    congr 1
    simp
    omega

theorem scanBody : ∀ {b : List Char}, ObjBody b → ∀ (rest : List Char) (d : Int) (n : ℕ),
    1 ≤ d → ebjScan (b ++ rest) d false false n = ebjScan rest d false false (n + b.length)
  | _, ObjBody.nil, rest, d, n, _ => by simp
  | _, ObjBody.plain h1 h2 h3 h4 hb, rest, d, n, hd => by
    rw [List.cons_append, ebjStep_plain _ _ _ _ h3 h4 h1 h2, scanBody hb rest d (n + 1) hd]
    congr 1
    simp
    omega
  | _, ObjBody.esc hb, rest, d, n, hd => by
    rw [List.cons_append, List.cons_append, ebjStep_backslash, ebjStep_esc,
      scanBody hb rest d (n + 1 + 1) hd]
    congr 1
    simp
    omega
  | _, ObjBody.str hs hb, rest, d, n, hd => by
    simp only [List.cons_append, List.append_assoc]
    rw [ebjStep_quote_open, scanStrBody hs _ d (n + 1), ebjStep_quote_close,
      scanBody hb rest d _ hd]
    congr 1
    simp
    omega
  | _, ObjBody.obj hbody hb, rest, d, n, hd => by
    simp only [List.cons_append, List.append_assoc]
    rw [ebjStep_open, scanBody hbody _ (d + 1) (n + 1) (by omega), ebjStep_close,
      if_neg (by omega), show d + 1 - 1 = d from by omega, scanBody hb rest d _ hd]
    congr 1
    simp
    omega

theorem scanObj_top : ∀ {o : List Char}, BalancedObj o → ∀ (suf : List Char),
    ebjScan (o ++ suf) 0 false false 0 = some o.length
  | _, BalancedObj.mk hbody, suf => by
    simp only [List.cons_append, List.append_assoc, List.singleton_append, List.nil_append]
    rw [ebjStep_open, scanBody hbody (braceClose :: suf) (0 + 1) (0 + 1) (by omega),
      ebjStep_close, if_pos (by omega)]
    congr 1
    simp
    omega

/-! ### Derivation builders for concrete balanced objects -/

theorem strBody_plain_append : ∀ (cs : List Char) {r : List Char},
    (∀ c ∈ cs, c ≠ quoteChar ∧ c ≠ backslashChar) → StrBody r → StrBody (cs ++ r)
  | [], _, _, hr => hr
  | c :: cl, r, h, hr =>
    StrBody.chr (h c (List.mem_cons_self c cl)).1 (h c (List.mem_cons_self c cl)).2
      (strBody_plain_append cl (fun x hx => h x (List.mem_cons_of_mem c hx)) hr)

theorem strBody_plain (cs : List Char)
    (h : ∀ c ∈ cs, c ≠ quoteChar ∧ c ≠ backslashChar) : StrBody cs := by
  have := strBody_plain_append cs h StrBody.nil
  rwa [List.append_nil] at this

theorem objBody_plain_append : ∀ (cs : List Char) {r : List Char},
    (∀ c ∈ cs, c ≠ braceOpen ∧ c ≠ braceClose ∧ c ≠ quoteChar ∧ c ≠ backslashChar) →
    ObjBody r → ObjBody (cs ++ r)
  | [], _, _, hr => hr
  | c :: cl, r, h, hr =>
    ObjBody.plain (h c (List.mem_cons_self c cl)).1 (h c (List.mem_cons_self c cl)).2.1
      (h c (List.mem_cons_self c cl)).2.2.1 (h c (List.mem_cons_self c cl)).2.2.2
      (objBody_plain_append cl (fun x hx => h x (List.mem_cons_of_mem c hx)) hr)

/-- The specification payload is a balanced object of the grammar. -/
theorem payload_balanced : BalancedObj sokPayloadObj.toList := by
  have t1 : ObjBody ("\"c\": 1".toList) := by
    have h := ObjBody.str (strBody_plain "c".toList (by decide))
      (objBody_plain_append ": 1".toList (by decide) ObjBody.nil)
    rw [show ("\"c\": 1".toList) =
      quoteChar :: "c".toList ++ quoteChar :: (": 1".toList ++ []) from by decide]
    exact h
  have t2 : ObjBody ("\"b\": \x7b\"c\": 1\x7d".toList) := by
    have h := ObjBody.str (strBody_plain "b".toList (by decide))
      (objBody_plain_append ": ".toList (by decide) (ObjBody.obj t1 ObjBody.nil))
    rw [show ("\"b\": \x7b\"c\": 1\x7d".toList) =
      quoteChar :: "b".toList ++
        quoteChar :: (": ".toList ++ (braceOpen :: "\"c\": 1".toList ++ braceClose :: []))
      from by decide]
    exact h
  have t3 : StrBody ("value with \x7d and \\\" inside".toList) := by
    have h := strBody_plain_append "value with \x7d and ".toList (by decide)
      (@StrBody.esc quoteChar (" inside".toList) (strBody_plain " inside".toList (by decide)))
    rw [show ("value with \x7d and \\\" inside".toList) =
      "value with \x7d and ".toList ++ (backslashChar :: quoteChar :: " inside".toList)
      from by decide]
    exact h
  have t4 : ObjBody
      ("\"a\": \"value with \x7d and \\\" inside\", \"b\": \x7b\"c\": 1\x7d".toList) := by
    have h := ObjBody.str (strBody_plain "a".toList (by decide))
      (objBody_plain_append ": ".toList (by decide)
        (ObjBody.str t3
          (objBody_plain_append ", ".toList (by decide) t2)))
    rw [show
      ("\"a\": \"value with \x7d and \\\" inside\", \"b\": \x7b\"c\": 1\x7d".toList) =
      quoteChar :: "a".toList ++
        quoteChar :: (": ".toList ++
          (quoteChar :: "value with \x7d and \\\" inside".toList ++
            quoteChar :: (", ".toList ++
              "\"b\": \x7b\"c\": 1\x7d".toList))) from by decide]
    exact h
  have h := BalancedObj.mk t4
  rw [show sokPayloadObj.toList =
    braceOpen ::
      "\"a\": \"value with \x7d and \\\" inside\", \"b\": \x7b\"c\": 1\x7d".toList ++
      [braceClose] from by decide]
  exact h

/-- Claim C9: the balanced-brace JSON extractor, started at the opening
brace of a balanced object embedded in surrounding text, returns exactly
the substring of that object — for every decomposition `pre ++ obj ++ suf`
with `obj` a balanced object of the grammar, extraction at index
`pre.length` yields exactly `obj`; brace and quote characters occurring
inside double-quoted string values (including backslash-escaped quotes)
do not affect the depth count, since string bodies of the grammar may
contain them freely.  In particular the specification payload
`\x7b"a": "value with \x7d and \\" inside", "b": \x7b"c": 1\x7d\x7d`
embedded in surrounding text extracts exactly. -/
theorem C9_balanced_brace_extraction :
    (∀ (pre obj suf : List Char), BalancedObj obj →
      extractBalancedJson (pre ++ obj ++ suf) pre.length 0 = some obj) ∧
    BalancedObj sokPayloadObj.toList ∧
    extractBalancedJson
      ("self.__next_f.push(1, data) ".toList ++ sokPayloadObj.toList ++
        " trailing noise".toList)
      "self.__next_f.push(1, data) ".toList.length 0 = some sokPayloadObj.toList := by
  have huniv : ∀ (pre obj suf : List Char), BalancedObj obj →
      extractBalancedJson (pre ++ obj ++ suf) pre.length 0 = some obj := by
    intro pre obj suf hobj
    have hseg : ((pre ++ obj ++ suf).drop pre.length).take
        ((pre ++ obj ++ suf).length - pre.length) = obj ++ suf := by
      rw [List.append_assoc, List.drop_left]
      refine List.take_of_length_le ?_
      simp [List.length_append]
    rw [extractBalancedJson, if_pos rfl, hseg, scanObj_top hobj suf]
    show some ((obj ++ suf).take obj.length) = some obj
    rw [List.take_left]
  exact ⟨huniv, payload_balanced,
    huniv "self.__next_f.push(1, data) ".toList sokPayloadObj.toList
      " trailing noise".toList payload_balanced⟩

/-- Witness for C9: the universal extraction theorem applied to the
specification payload between concrete surrounding text. -/
theorem C9_balanced_brace_extraction_witness :
    BalancedObj sokPayloadObj.toList ∧
    extractBalancedJson
      ("<script>var x = ".toList ++ sokPayloadObj.toList ++ ";</script>".toList)
      "<script>var x = ".toList.length 0 = some sokPayloadObj.toList :=
  ⟨payload_balanced,
    C9_balanced_brace_extraction.1 "<script>var x = ".toList sokPayloadObj.toList
      ";</script>".toList payload_balanced⟩

/-- Claim C10: the ŞOK scraper returns at most 30 records: the parsed and
source-filtered list is truncated to its first 30 elements before being
cached and returned, so neither a live response nor a cache hit (whose
entries are previous truncated results) ever yields more than 30 records.
Universally quantified over the per-item parser and the raw item lists. -/
theorem C10_sok_at_most_30 {α : Type} (parseItem parseCached : α → Option ProductRec)
    (items cachedItems : List α) :
    (sokCollect parseItem items).length ≤ 30 ∧
    (sokSearchProduct none (sokCollect parseItem items)).length ≤ 30 ∧
    (sokSearchProduct (some (sokCollect parseCached cachedItems))
      (sokCollect parseItem items)).length ≤ 30 := by
  have hlen : ∀ (f : α → Option ProductRec) (l : List α), (sokCollect f l).length ≤ 30 := by
    intro f l
    rw [sokCollect, List.length_take]
    omega
  refine ⟨hlen parseItem items, hlen parseItem items, ?_⟩
  rw [sokSearchProduct]
  by_cases h : (sokCollect parseCached cachedItems).isEmpty
  · rw [if_neg (by rw [h]; decide)]
    exact hlen parseItem items
  · rw [if_pos (by simp only [Bool.not_eq_true] at h; rw [h]; rfl)]
    exact hlen parseCached cachedItems

/-- Counterexample to claim C1: a record whose name yields gramaj = 500 g
at price 15.00 gets `unit_price = 3.0` (price per 100 g) from the
normalizer — not `300.0` as the claim states — while
`normalized_price_per_kg = 30.0` does hold. -/
theorem C1_counterexample :
    (unitPricePipeline peynirRec).gramaj = some (mkRat 500 1) ∧
    (unitPricePipeline peynirRec).unit_price = some (mkRat 3 1) ∧
    (unitPricePipeline peynirRec).unit_price ≠ some (mkRat 300 1) ∧
    (unitPricePipeline peynirRec).normalized_price_per_kg = some (mkRat 30 1) ∧
    (mkRat 3 1 : ℚ) = 3 ∧ (mkRat 300 1 : ℚ) = 300 ∧ (mkRat 30 1 : ℚ) = 30 := by
  refine ⟨by decide, by decide, by decide, by decide, ?_, ?_, ?_⟩ <;>
    rw [mkRat_int] <;> norm_num

/-- Claim C1 as amended: for the record whose name yields gramaj = 500 g
and price 15.00, the unit-price computation yields `unit_price == 3.0`
(price per 100 g) and `normalized_price_per_kg == 30.0`. -/
theorem C1_amended :
    (unitPricePipeline peynirRec).gramaj = some (mkRat 500 1) ∧
    (unitPricePipeline peynirRec).unit_price = some (mkRat 3 1) ∧
    (unitPricePipeline peynirRec).normalized_price_per_kg = some (mkRat 30 1) ∧
    (mkRat 500 1 : ℚ) = 500 ∧ (mkRat 15 1 : ℚ) = 15 ∧
    (mkRat 3 1 : ℚ) = 3 ∧ (mkRat 30 1 : ℚ) = 30 := by
  refine ⟨by decide, by decide, by decide, ?_, ?_, ?_, ?_⟩ <;>
    rw [mkRat_int] <;> norm_num

/-- Claim C8 as amended: for every normalized record with price > 0, the
unit price follows the three branches of `calculate_unit_price`: countable
with positive unit_value gives `round(price/unit_value, 2)`; otherwise a
positive gramaj gives `round((price/gramaj)*100, 2)`; otherwise
`unit_price` is `None`.  (The original claim's addition that
`has_unit_info` is false in the last branch is dropped: see the
counterexample.) -/
theorem C8_amended (p : ProductRec)
    (hpos : 0 < (normalizeProduct p).price.getD 0) :
    ((normalizeProduct p).is_countable = true →
      optTruthyPos (normalizeProduct p).unit_value = true →
      (calculateUnitPrice (normalizeProduct p)).unit_price =
        some (pyRound2 (qdiv ((normalizeProduct p).price.getD 0)
          ((normalizeProduct p).unit_value.getD 0)))) ∧
    (((normalizeProduct p).is_countable = false ∨
        optTruthyPos (normalizeProduct p).unit_value = false) →
      optTruthyPos (normalizeProduct p).gramaj = true →
      (calculateUnitPrice (normalizeProduct p)).unit_price =
        some (pyRound2 (qmul (qdiv ((normalizeProduct p).price.getD 0)
          ((normalizeProduct p).gramaj.getD 0)) (mkRat 100 1)))) ∧
    (((normalizeProduct p).is_countable = false ∨
        optTruthyPos (normalizeProduct p).unit_value = false) →
      optTruthyPos (normalizeProduct p).gramaj = false →
      (calculateUnitPrice (normalizeProduct p)).unit_price = none) := by
  have hp : ((!((normalizeProduct p).price.getD 0 == 0)) &&
      Rat.blt 0 ((normalizeProduct p).price.getD 0)) = true := by
    rw [Bool.and_eq_true, Bool.not_eq_true', beq_eq_false_iff_ne]
    exact ⟨hpos.ne', (qblt_iff 0 _).mpr hpos⟩
  refine ⟨?_, ?_, ?_⟩
  · intro hc hv
    rw [calculateUnitPrice]
    simp only [hp, if_true, hc, hv, Bool.and_self, if_pos]
  · intro hc hg
    rw [calculateUnitPrice]
    have hcv : ((normalizeProduct p).is_countable &&
        optTruthyPos (normalizeProduct p).unit_value) = false := by
      rcases hc with hc | hc <;> rw [hc] <;> simp
    simp only [hp, if_true, hcv, Bool.false_eq_true, if_false, hg, if_pos]
  · intro hc hg
    rw [calculateUnitPrice]
    have hcv : ((normalizeProduct p).is_countable &&
        optTruthyPos (normalizeProduct p).unit_value) = false := by
      rcases hc with hc | hc <;> rw [hc] <;> simp
    simp only [hp, if_true, hcv, Bool.false_eq_true, if_false, hg]

/-- Witness for C8: the 32-roll pack at 64.00 takes the countable branch
and yields unit_price 2.00 per roll. -/
theorem C8_amended_witness :
    (0 < (normalizeProduct rulaRec).price.getD 0 ∧
      (calculateUnitPrice (normalizeProduct rulaRec)).unit_price =
        some (pyRound2 (qdiv ((normalizeProduct rulaRec).price.getD 0)
          ((normalizeProduct rulaRec).unit_value.getD 0)))) ∧
    (calculateUnitPrice (normalizeProduct rulaRec)).unit_price = some (mkRat 2 1) :=
  ⟨⟨by decide, (C8_amended rulaRec (by decide)).1 (by decide) (by decide)⟩, by decide⟩

/-- Counterexample to claim C8: the record named `Süt 0 g` (price 10) is
normalized to `unit_value = 0`, `gramaj = 0`, so neither unit-price branch
applies and `unit_price = None`, yet `has_unit_info` is `true` — the
claim's final clause (`has_unit_info is false`) fails. -/
theorem C8_counterexample :
    0 < (normalizeProduct zeroGramRec).price.getD 0 ∧
    (normalizeProduct zeroGramRec).is_countable = false ∧
    (normalizeProduct zeroGramRec).gramaj = some 0 ∧
    (calculateUnitPrice (normalizeProduct zeroGramRec)).unit_price = none ∧
    (calculateUnitPrice (normalizeProduct zeroGramRec)).has_unit_info = true := by
  refine ⟨by decide, by decide, by decide, by decide, by decide⟩

/-- Claim C4: `smart_rank` returns a permutation of its input in which
every record with unit info precedes every record without; the unit-info
records are sorted ascending by (unit_price, price, product_name) — with a
missing value reading as `+inf` — and the remaining records are sorted
ascending by (price, product_name). -/
theorem C4_smart_rank (l : List ProductRec) :
    (smartRank l).Perm l ∧
    (smartRank l).Pairwise (fun a b => b.has_unit_info = true → a.has_unit_info = true) ∧
    ((smartRank l).filter (fun p => p.has_unit_info)).Pairwise
      (fun p q => rankUnitLe p q = true) ∧
    ((smartRank l).filter (fun p => !p.has_unit_info)).Pairwise
      (fun p q => rankNoUnitLe p q = true) := by
  have htotU : ∀ p q : ProductRec, rankUnitLe p q = true ∨ rankUnitLe q p = true :=
    fun p q => keyLe_total (rankUnitKey p) (rankUnitKey q)
  have htransU : ∀ p q r : ProductRec, rankUnitLe p q = true → rankUnitLe q r = true →
      rankUnitLe p r = true :=
    fun _ _ _ h1 h2 => keyLe_trans h1 h2
  have htotN : ∀ p q : ProductRec, rankNoUnitLe p q = true ∨ rankNoUnitLe q p = true :=
    fun p q => keyLe_total (rankNoUnitKey p) (rankNoUnitKey q)
  have htransN : ∀ p q r : ProductRec, rankNoUnitLe p q = true → rankNoUnitLe q r = true →
      rankNoUnitLe p r = true :=
    fun _ _ _ h1 h2 => keyLe_trans h1 h2
  have memA : ∀ a ∈ isort rankUnitLe (l.filter (fun p => p.has_unit_info)),
      a.has_unit_info = true := by
    intro a ha
    exact (List.mem_filter.mp (mem_isort.mp ha)).2
  have memB : ∀ b ∈ isort rankNoUnitLe (l.filter (fun p => !p.has_unit_info)),
      b.has_unit_info = false := by
    intro b hb
    have := (List.mem_filter.mp (mem_isort.mp hb)).2
    simpa using this
  have hperm : (smartRank l).Perm l := by
    rw [smartRank]
    exact ((isort_perm _ _).append (isort_perm _ _)).trans
      (List.filter_append_perm (fun p => p.has_unit_info) l)
  refine ⟨hperm, ?_, ?_, ?_⟩
  · rw [smartRank]
    refine List.pairwise_append.mpr ⟨?_, ?_, ?_⟩
    · exact pairwise_of_mem (fun a ha b _ => fun _ => memA a ha)
    · refine pairwise_of_mem (fun a _ b hb => ?_)
      intro hbu
      rw [memB b hb] at hbu
      exact absurd hbu (by simp)
    · intro a ha b hb
      exact fun _ => memA a ha
  · have e1 : List.filter (fun p => p.has_unit_info)
        (isort rankUnitLe (l.filter (fun p => p.has_unit_info))) =
        isort rankUnitLe (l.filter (fun p => p.has_unit_info)) :=
      List.filter_eq_self.mpr memA
    have e2 : List.filter (fun p => p.has_unit_info)
        (isort rankNoUnitLe (l.filter (fun p => !p.has_unit_info))) = [] :=
      List.filter_eq_nil_iff.mpr (fun b hb => by rw [memB b hb]; simp)
    have hA : (smartRank l).filter (fun p => p.has_unit_info) =
        isort rankUnitLe (l.filter (fun p => p.has_unit_info)) := by
      rw [smartRank, List.filter_append, e1, e2, List.append_nil]
    rw [hA]
    exact isort_pairwise htotU htransU _
  · have e1 : List.filter (fun p => !p.has_unit_info)
        (isort rankUnitLe (l.filter (fun p => p.has_unit_info))) = [] :=
      List.filter_eq_nil_iff.mpr (fun a ha => by rw [memA a ha]; simp)
    have e2 : List.filter (fun p => !p.has_unit_info)
        (isort rankNoUnitLe (l.filter (fun p => !p.has_unit_info))) =
        isort rankNoUnitLe (l.filter (fun p => !p.has_unit_info)) :=
      List.filter_eq_self.mpr (fun b hb => by rw [memB b hb]; rfl)
    have hB : (smartRank l).filter (fun p => !p.has_unit_info) =
        isort rankNoUnitLe (l.filter (fun p => !p.has_unit_info)) := by
      rw [smartRank, List.filter_append, e1, e2, List.nil_append]
    rw [hB]
    exact isort_pairwise htotN htransN _

/-- Counterexample to claim C6: the final sort does not use the key
`(unit_price ?? +inf, …)` with a present `0` kept as `0`.  Both records
are produced by the actual unit-price pipeline: 10 kg at 0.01 TL rounds to
`unit_price = 0.0` and `normalized_price_per_kg = 0.0`; 500 g at 5.00 TL
gives `unit_price = 1.0`.  Under the claim's key the `0.0` record sorts
strictly first, but the code's Python `or` treats `0` as absent, so the
code orders the other record first. -/
theorem C6_counterexample :
    (unitPricePipeline cheapBulkRec).unit_price = some 0 ∧
    (unitPricePipeline cheapBulkRec).normalized_price_per_kg = some 0 ∧
    (unitPricePipeline smallPackRec).unit_price = some (mkRat 1 1) ∧
    cmpKey (specFinalKey (unitPricePipeline cheapBulkRec))
      (specFinalKey (unitPricePipeline smallPackRec)) = Ordering.lt ∧
    finalSort [unitPricePipeline cheapBulkRec, unitPricePipeline smallPackRec] =
      [unitPricePipeline smallPackRec, unitPricePipeline cheapBulkRec] := by
  refine ⟨by decide, by decide, by decide, by decide, by decide⟩

/-- Claim C6 as amended: the Relevance Filter's final sort orders the
output ascending by the key
`(unit_price or unit_price_per_100 or +inf,
  normalized_price_per_kg or +inf, price(absent = +inf))`
under Python truthiness (`or` treats a present `0` like an absent value,
and `unit_price_per_100` participates as a fallback), compared
lexicographically; the output is a permutation of the input. -/
theorem C6_amended (l : List ProductRec) :
    (finalSort l).Perm l ∧
    (finalSort l).Pairwise (fun p q => finalSortLe p q = true) ∧
    (∀ p : ProductRec, finalKey p =
      (orElseQ p.unit_price p.unit_price_per_100,
        truthyQ p.normalized_price_per_kg, p.price, [])) := by
  refine ⟨isort_perm _ l, ?_, fun p => rfl⟩
  exact isort_pairwise
    (fun p q => keyLe_total (finalKey p) (finalKey q))
    (fun _ _ _ h1 h2 => keyLe_trans h1 h2) l

/-! ### Duplicate-scan lemmas (for claim C5) -/

theorem dedupScan_sub : ∀ (kept rest : List ProductRec) {b : ProductRec},
    b ∈ dedupScan kept rest → b ∈ rest
  | _, [], _, h => absurd h (by rw [dedupScan]; simp)
  | kept, r :: rest, b, h => by
    rw [dedupScan] at h
    by_cases hd : kept.any (fun k => isDupOf k r)
    · rw [if_pos hd] at h
      exact List.mem_cons_of_mem r (dedupScan_sub kept rest h)
    · rw [if_neg hd] at h
      rcases List.mem_cons.mp h with h | h
      · rw [h]
        exact List.mem_cons_self r rest
      · exact List.mem_cons_of_mem r (dedupScan_sub (kept ++ [r]) rest h)

theorem dedupScan_inv : ∀ (kept rest : List ProductRec),
    (∀ a ∈ kept, ∀ b ∈ dedupScan kept rest, isDupOf a b = false) ∧
      (dedupScan kept rest).Pairwise (fun a b => isDupOf a b = false)
  | _, [] => by
    rw [dedupScan]
    exact ⟨fun a _ b hb => absurd hb (by simp), List.Pairwise.nil⟩
  | kept, r :: rest => by
    rw [dedupScan]
    by_cases hd : kept.any (fun k => isDupOf k r)
    · rw [if_pos hd]
      exact dedupScan_inv kept rest
    · rw [if_neg hd]
      have hnotdup : ∀ a ∈ kept, isDupOf a r = false := by
        intro a ha
        rcases hdup : isDupOf a r with _ | _
        · rfl
        · exact absurd (List.any_eq_true.mpr ⟨a, ha, hdup⟩) hd
      have ih := dedupScan_inv (kept ++ [r]) rest
      refine ⟨?_, ?_⟩
      · intro a ha b hb
        rcases List.mem_cons.mp hb with hb | hb
        · rw [hb]
          exact hnotdup a ha
        · exact ih.1 a (List.mem_append_left _ ha) b hb
      · refine List.pairwise_cons.mpr ⟨?_, ih.2⟩
        intro b hb
        exact ih.1 r (List.mem_append_right _ (List.mem_singleton_self r)) b hb

theorem dedupScan_complete : ∀ (kept rest : List ProductRec) (x : ProductRec),
    x ∈ rest → x ∈ dedupScan kept rest ∨
      ∃ y, (y ∈ kept ∨ y ∈ dedupScan kept rest) ∧ isDupOf y x = true
  | _, [], x, hx => absurd hx (by simp)
  | kept, r :: rest, x, hx => by
    rw [dedupScan]
    by_cases hd : kept.any (fun k => isDupOf k r)
    · rw [if_pos hd]
      rcases List.mem_cons.mp hx with hx | hx
      · rcases List.any_eq_true.mp hd with ⟨y, hy, hdup⟩
        subst hx
        exact Or.inr ⟨y, Or.inl hy, hdup⟩
      · exact dedupScan_complete kept rest x hx
    · rw [if_neg hd]
      rcases List.mem_cons.mp hx with hx | hx
      · exact Or.inl (by rw [hx]; exact List.mem_cons_self r _)
      · rcases dedupScan_complete (kept ++ [r]) rest x hx with h | ⟨y, hy, hdup⟩
        · exact Or.inl (List.mem_cons_of_mem r h)
        · rcases hy with hy | hy
          · rcases List.mem_append.mp hy with hy | hy
            · exact Or.inr ⟨y, Or.inl hy, hdup⟩
            · refine Or.inr ⟨y, Or.inr ?_, hdup⟩
              rw [List.mem_singleton.mp hy]
              exact List.mem_cons_self r _
          · exact Or.inr ⟨y, Or.inr (List.mem_cons_of_mem r hy), hdup⟩

/-! ### First-occurrence deduplication of a string list -/

theorem dedupFirst_foldl_mem : ∀ (l acc : List String) (x : String),
    x ∈ l.foldl (fun acc2 s => if acc2.contains s then acc2 else acc2 ++ [s]) acc ↔
      x ∈ acc ∨ x ∈ l
  | [], acc, x => by simp
  | s :: rest, acc, x => by
    rw [List.foldl_cons, dedupFirst_foldl_mem rest _ x]
    by_cases hc : acc.contains s
    · rw [if_pos hc]
      have hs : s ∈ acc := List.elem_iff.mp hc
      constructor
      · rintro (h | h)
        · exact Or.inl h
        · exact Or.inr (List.mem_cons_of_mem s h)
      · rintro (h | h)
        · exact Or.inl h
        · rcases List.mem_cons.mp h with h | h
          · exact Or.inl (h ▸ hs)
          · exact Or.inr h
    · rw [if_neg hc]
      constructor
      · rintro (h | h)
        · rcases List.mem_append.mp h with h | h
          · exact Or.inl h
          · exact Or.inr (List.mem_cons.mpr (Or.inl (List.mem_singleton.mp h)))
        · exact Or.inr (List.mem_cons_of_mem s h)
      · rintro (h | h)
        · exact Or.inl (List.mem_append_left _ h)
        · rcases List.mem_cons.mp h with h | h
          · exact Or.inl (List.mem_append_right _ (by rw [h]; exact List.mem_singleton_self s))
          · exact Or.inr h

theorem dedupFirst_foldl_nodup : ∀ (l acc : List String), acc.Nodup →
    (l.foldl (fun acc2 s => if acc2.contains s then acc2 else acc2 ++ [s]) acc).Nodup
  | [], _, h => h
  | s :: rest, acc, h => by
    rw [List.foldl_cons]
    by_cases hc : acc.contains s
    · rw [if_pos hc]
      exact dedupFirst_foldl_nodup rest acc h
    · rw [if_neg hc]
      refine dedupFirst_foldl_nodup rest _ ?_
      rw [List.nodup_append]
      refine ⟨h, List.nodup_singleton s, ?_⟩
      intro a ha hb
      rw [List.mem_singleton.mp hb] at ha
      exact hc (List.elem_iff.mpr ha)

theorem dedupFirst_mem (l : List String) (x : String) : x ∈ dedupFirst l ↔ x ∈ l := by
  rw [dedupFirst, dedupFirst_foldl_mem]
  simp

theorem dedupFirst_nodup (l : List String) : (dedupFirst l).Nodup :=
  dedupFirst_foldl_nodup l [] List.nodup_nil

theorem marketsInOrder_eq (l : List ProductRec) :
    marketsInOrder l = dedupFirst (l.map (fun p => p.market_name)) := by
  rw [marketsInOrder, dedupFirst, List.foldl_map]

theorem marketsInOrder_mem (l : List ProductRec) (m : String) :
    m ∈ marketsInOrder l ↔ ∃ p ∈ l, p.market_name = m := by
  rw [marketsInOrder_eq, dedupFirst_mem, List.mem_map]

theorem marketsInOrder_nodup (l : List ProductRec) : (marketsInOrder l).Nodup := by
  rw [marketsInOrder_eq]
  exact dedupFirst_nodup _

theorem flatMarketGroups : ∀ (ms : List String), ms.Nodup → ∀ (l : List ProductRec) (m : String),
    (ms.flatMap (fun mk => dedupScan [] (l.filter (fun p => p.market_name == mk)))).filter
      (fun p => p.market_name == m) =
      if m ∈ ms then dedupScan [] (l.filter (fun p => p.market_name == m)) else []
  | [], _, l, m => by simp
  | mk :: ms2, hnd, l, m => by
    rcases List.nodup_cons.mp hnd with ⟨hm, hnd2⟩
    rw [List.flatMap_cons, List.filter_append, flatMarketGroups ms2 hnd2 l m]
    by_cases he : m = mk
    · subst he
      have e1 : List.filter (fun p => p.market_name == m)
          (dedupScan [] (l.filter (fun p => p.market_name == m))) =
          dedupScan [] (l.filter (fun p => p.market_name == m)) :=
        List.filter_eq_self.mpr
          (fun a ha => (List.mem_filter.mp (dedupScan_sub _ _ ha)).2)
      rw [e1, if_neg hm, if_pos (List.mem_cons_self m ms2), List.append_nil]
    · have e1 : List.filter (fun p => p.market_name == m)
          (dedupScan [] (l.filter (fun p => p.market_name == mk))) = [] := by
        refine List.filter_eq_nil_iff.mpr ?_
        intro a ha hbeq
        have h1 : a.market_name = mk :=
          beq_iff_eq.mp (List.mem_filter.mp (dedupScan_sub _ _ ha)).2
        have h2 : a.market_name = m := beq_iff_eq.mp hbeq
        exact he (h2 ▸ h1 ▸ rfl)
      rw [e1, List.nil_append]
      by_cases hin : m ∈ ms2
      · rw [if_pos hin, if_pos (List.mem_cons_of_mem mk hin)]
      · rw [if_neg hin, if_neg (by
          intro hc
          rcases List.mem_cons.mp hc with hc | hc
          · exact he hc
          · exact hin hc)]

/-- Claim C5 as amended: the fuzzy duplicate elimination is market-scoped
and representative-based.  (1) What survives for a given market is exactly
the scan of that market's sublist — records from other markets never
affect it, so records from different markets are never merged.  (2) Within
a market, no kept record is a fuzzy duplicate (name ratio ≥ 0.95 and price
within 5%) of a later kept record.  (3) Every dropped record is a fuzzy
duplicate of some kept record.  The original claim's universally-pairwise
reading — any later member of a similar pair is dropped — is false: a
record similar only to an already-dropped record survives (see the
counterexample). -/
theorem C5_amended :
    (∀ (l : List ProductRec) (m : String),
      (smartFilterDuplicates l).filter (fun p => p.market_name == m) =
        dedupScan [] (l.filter (fun p => p.market_name == m))) ∧
    (∀ g : List ProductRec,
      (dedupScan [] g).Pairwise (fun a b => isDupOf a b = false)) ∧
    (∀ (g : List ProductRec) (x : ProductRec), x ∈ g →
      x ∈ dedupScan [] g ∨ ∃ y ∈ dedupScan [] g, isDupOf y x = true) := by
  refine ⟨?_, ?_, ?_⟩
  · intro l m
    by_cases hl : l.isEmpty
    · rw [smartFilterDuplicates, if_pos hl]
      have : l = [] := by
        cases l
        · rfl
        · exact absurd hl (by simp)
      subst this
      rfl
    · rw [smartFilterDuplicates, if_neg hl,
        flatMarketGroups (marketsInOrder l) (marketsInOrder_nodup l) l m]
      by_cases hin : m ∈ marketsInOrder l
      · rw [if_pos hin]
      · rw [if_neg hin]
        have hfe : l.filter (fun p => p.market_name == m) = [] := by
          refine List.filter_eq_nil_iff.mpr ?_
          intro a ha hbeq
          exact hin ((marketsInOrder_mem l m).mpr ⟨a, ha, beq_iff_eq.mp hbeq⟩)
        rw [hfe]
        rfl
  · intro g
    exact (dedupScan_inv [] g).2
  · intro g x hx
    rcases dedupScan_complete [] g x hx with h | ⟨y, hy, hdup⟩
    · exact Or.inl h
    · rcases hy with hy | hy
      · exact absurd hy (by simp)
      · exact Or.inr ⟨y, hy, hdup⟩

/-- Witness for C5: in the concrete three-record chain, the dropped record
B is a fuzzy duplicate of the kept record A. -/
theorem C5_amended_witness :
    chainRecB ∈ ([chainRecA, chainRecB, chainRecC] : List ProductRec) ∧
    (chainRecB ∈ dedupScan [] [chainRecA, chainRecB, chainRecC] ∨
      ∃ y ∈ dedupScan [] [chainRecA, chainRecB, chainRecC], isDupOf y chainRecB = true) :=
  ⟨by decide, C5_amended.2.2 [chainRecA, chainRecB, chainRecC] chainRecB (by decide)⟩

/-- Counterexample to claim C5: three same-market records with identical
names and prices 100, 96, 92.  The pairs (A,B) and (B,C) are fuzzy
duplicates (price gaps 4% and 4.17%), but (A,C) is not (8%).  The claim
demands that C, the later record of the duplicate pair (B,C), be dropped;
the code drops B (as a duplicate of A) and then keeps C because it is only
compared against the kept record A. -/
theorem C5_counterexample :
    isDupOf chainRecB chainRecC = true ∧
    isDupOf chainRecA chainRecB = true ∧
    isDupOf chainRecA chainRecC = false ∧
    smartFilterDuplicates [chainRecA, chainRecB, chainRecC] = [chainRecA, chainRecC] := by
  refine ⟨by decide, by decide, by decide, by decide⟩

/-! ### Merge invariant of the orchestrator (claim C7) -/

/-- Invariant of the merge loop: every admitted record's key is in `seen`,
and admitted records have pairwise distinct keys. -/
def MergeInv (st : List (String × String × ℚ) × List ProductRec) : Prop :=
  (∀ p ∈ st.2, botDedupKey p ∈ st.1) ∧
    st.2.Pairwise (fun r s => botDedupKey r ≠ botDedupKey s)

theorem addResults_inv : ∀ (items : List ProductRec)
    (seen : List (String × String × ℚ)) (acc : List ProductRec),
    MergeInv (seen, acc) → MergeInv (addResults seen acc items)
  | [], _, _, h => by
    rw [addResults]
    exact h
  | p :: rest, seen, acc, h => by
    rw [addResults]
    by_cases hc : seen.contains (botDedupKey p)
    · rw [if_pos hc]
      exact addResults_inv rest seen acc h
    · rw [if_neg hc]
      refine addResults_inv rest _ _ ⟨?_, ?_⟩
      · intro q hq
        rcases List.mem_append.mp hq with hq | hq
        · exact List.mem_cons_of_mem _ (h.1 q hq)
        · rw [List.mem_singleton.mp hq]
          exact List.mem_cons_self _ _
      · refine List.pairwise_append.mpr ⟨h.2, List.pairwise_singleton _ _, ?_⟩
        intro r hr q hq
        rw [List.mem_singleton.mp hq]
        intro hkey
        exact hc (List.elem_iff.mpr (hkey ▸ h.1 r hr))

theorem mergeFold_inv : ∀ (outcomes : List (String × Except String (List ProductRec)))
    (st : List (String × String × ℚ) × List ProductRec), MergeInv st →
    MergeInv (outcomes.foldl
      (fun st2 o =>
        match o.2 with
        | Except.error _ => st2
        | Except.ok items => addResults st2.1 st2.2 items) st)
  | [], _, h => h
  | o :: rest, st, h => by
    rw [List.foldl_cons]
    refine mergeFold_inv rest _ ?_
    match o with
    | (_, Except.error _) => exact h
    | (_, Except.ok items) => exact addResults_inv items st.1 st.2 h

theorem mergeOutcomes_pairwise (outcomes : List (String × Except String (List ProductRec))) :
    (mergeOutcomes outcomes).Pairwise (fun r s => botDedupKey r ≠ botDedupKey s) :=
  (mergeFold_inv outcomes ([], [])
    ⟨fun _ h => absurd h (by simp), List.Pairwise.nil⟩).2

theorem std_triple_eq_key {r s : ProductRec}
    (h1 : (standardizeProduct r).market_name = (standardizeProduct s).market_name)
    (h2 : (standardizeProduct r).product_name = (standardizeProduct s).product_name)
    (h3 : (standardizeProduct r).price = (standardizeProduct s).price) :
    botDedupKey r = botDedupKey s := by
  have e1 : r.market_name = s.market_name := h1
  have e2 : r.product_name = s.product_name := h2
  have e3 : pyRound2 (r.price.getD 0) = pyRound2 (s.price.getD 0) := h3
  rw [botDedupKey, botDedupKey, e1, e2, e3]

/-- Claim C7: the merged output of the orchestrator's search never
contains two records with an identical (market_name, product_name, price)
triple — for every query and every combination of per-task outcomes — and
a task list that yields the same record twice produces it exactly once. -/
theorem C7_merged_dedup (query : String)
    (outcomes : List (String × Except String (List ProductRec)))
    (mk : String) (p : ProductRec) :
    ((searchAll query outcomes).2).Pairwise (fun r s =>
      ¬(r.market_name = s.market_name ∧ r.product_name = s.product_name ∧
        r.price = s.price)) ∧
    (searchAll query [(mk, Except.ok [p, p])]).2 = [standardizeProduct p] := by
  constructor
  · have hmap : ((mergeOutcomes outcomes).map standardizeProduct).Pairwise
        (fun r s => ¬(r.market_name = s.market_name ∧ r.product_name = s.product_name ∧
          r.price = s.price)) := by
      rw [List.pairwise_map]
      refine (mergeOutcomes_pairwise outcomes).imp ?_
      intro a b hk
      intro ⟨h1, h2, h3⟩
      exact hk (std_triple_eq_key h1 h2 h3)
    have hsymm : ∀ {r s : StdRec},
        (¬(r.market_name = s.market_name ∧ r.product_name = s.product_name ∧
          r.price = s.price)) →
        (¬(s.market_name = r.market_name ∧ s.product_name = r.product_name ∧
          s.price = r.price)) := by
      intro r s h
      intro ⟨h1, h2, h3⟩
      exact h ⟨h1.symm, h2.symm, h3.symm⟩
    rw [searchAll]
    exact ((isort_perm botSortLe _).pairwise_iff hsymm).mpr hmap
  · rw [searchAll, mergeOutcomes]
    simp only [List.foldl_cons, List.foldl_nil]
    rw [addResults, if_neg (by simp), addResults,
      if_pos (by simp), addResults]
    rfl

/-! ### Fully degraded run of the orchestrator (claim C3) -/

theorem allErrorsFold : ∀ (outcomes : List (String × Except String (List ProductRec)))
    (st : List (String × String × ℚ) × List ProductRec),
    (∀ o ∈ outcomes, ∃ e, o.2 = Except.error e) →
    outcomes.foldl
      (fun st2 o =>
        match o.2 with
        | Except.error _ => st2
        | Except.ok items => addResults st2.1 st2.2 items) st = st
  | [], _, _ => rfl
  | o :: rest, st, hall => by
    rw [List.foldl_cons]
    rcases hall o (List.mem_cons_self o rest) with ⟨e, he⟩
    have hstep : (match o.2 with
        | Except.error _ => st
        | Except.ok items => addResults st.1 st.2 items) = st := by
      rw [he]
    rw [hstep]
    exact allErrorsFold rest st (fun o2 ho2 => hall o2 (List.mem_cons_of_mem o ho2))

/-- Claim C3 as amended: when every scraper task fails,
`search_all_markets` completes (no exception escapes the merge — failed
outcomes are simply skipped) and returns empty results, an empty
`markets_responded` list and `total_products = 0`; the failed market names
are only logged inside `search_all`, they are not part of the return
value. -/
theorem C3_amended (query : String)
    (outcomes : List (String × Except String (List ProductRec)))
    (hall : ∀ o ∈ outcomes, ∃ e, o.2 = Except.error e) :
    searchAllMarkets query outcomes =
      { query := query, results := [], markets_responded := [], total_products := 0 } := by
  have hm : mergeOutcomes outcomes = [] := by
    rw [mergeOutcomes, allErrorsFold outcomes ([], []) hall]
  rw [searchAllMarkets, searchAll, hm]
  rfl

/-- Witness for C3: one failing scraper task. -/
theorem C3_amended_witness :
    (∀ o ∈ ([("Migros", Except.error "boom")] :
        List (String × Except String (List ProductRec))), ∃ e, o.2 = Except.error e) ∧
    searchAllMarkets "süt" [("Migros", Except.error "boom")] =
      { query := "süt", results := [], markets_responded := [], total_products := 0 } :=
  ⟨fun o ho => ⟨"boom", by rw [List.mem_singleton.mp ho]⟩,
    C3_amended "süt" [("Migros", Except.error "boom")]
      (fun o ho => ⟨"boom", by rw [List.mem_singleton.mp ho]⟩)⟩

/-- Counterexample to claim C3: with a single failing scraper named
Migros, the value returned by `search_all_markets` carries no list of
failed market names at all — the dict has exactly the keys query, results,
markets_responded, total_products, and its only string-list component,
`markets_responded`, is empty rather than listing the failed market. -/
theorem C3_counterexample :
    searchAllMarkets "süt" [("Migros", Except.error "boom")] =
      { query := "süt", results := [], markets_responded := [], total_products := 0 } ∧
    "Migros" ∉ (searchAllMarkets "süt" [("Migros", Except.error "boom")]).markets_responded := by
  refine ⟨by decide, by decide⟩
